import Mathlib

/-!
Verification of the geotoolkit spatial-query core (src/analysis.py,
src/geotoolkit/query.py, src/geotoolkit/knn.py) against its design
specification.

Embedding conventions:
* GeoJSON coordinates are modelled as exact rationals (the Python code works
  on floats; the claims under scrutiny concern exact geometric relations, so
  the rational model is the faithful idealisation).
* All distances are represented by their squares (`ℚ`-valued), since the
  Euclidean square root is irrational.  The map `d ↦ d²` is strictly monotone
  on nonnegative reals, so orderings, minima, zero-tests and equalities of
  distances are faithfully mirrored by the squared values.
* Calls into the shapely/GEOS geometry kernel (an external library, treated by
  the spec as an assumed-correct collaborator) are embedded by executable
  definitions implementing the kernel's documented semantics: point-segment /
  segment-segment distance, even-odd point-in-polygon with an explicit
  boundary test, bounding boxes, and STRtree queries as bounding-box filters.
* Python exceptions are modelled with `Except String`.
-/

/-- A planar point with exact rational coordinates (GeoJSON position). -/
structure Pt where
  x : ℚ
  y : ℚ
deriving DecidableEq

instance : Inhabited Pt := ⟨⟨0, 0⟩⟩

/-- A linear ring: closed ordered list of points (GeoJSON ring). -/
abbrev RingT := List Pt

/-- A polygon: exterior ring plus interior hole rings. -/
structure Polygon where
  exterior : RingT
  holes : List RingT
deriving DecidableEq

/-- The geometry union, restricted to the kinds the analysed queries
manipulate (points and polygons). -/
inductive Geometry where
  | point (p : Pt)
  | polygon (pg : Polygon)
deriving DecidableEq

/-- GeoJSON property values: string / number / bool / null. -/
inductive PropValue where
  | str (s : String)
  | num (q : ℚ)
  | bool (b : Bool)
  | null
deriving DecidableEq

/-- A property mapping, modelled as an insertion-ordered key-value list
(the image of a Python dict). -/
abbrev Props := List (String × PropValue)

/-- A GeoJSON feature: properties plus a geometry. -/
structure Feature where
  properties : Props
  geometry : Geometry
deriving DecidableEq

instance : Inhabited Feature := ⟨⟨[], .point ⟨0, 0⟩⟩⟩

/-- A GeoJSON feature collection: an ordered list of features. -/
structure FeatureCollection where
  features : List Feature
deriving DecidableEq

/-- Python dict assignment `d[key] = v`: overwrite in place when the key is
present (dicts keep the position of an existing key), else append. -/
def dictInsert (ps : Props) (key : String) (v : PropValue) : Props :=
  if ps.any (fun kv => kv.1 = key) then
    ps.map (fun kv => if kv.1 = key then (key, v) else kv)
  else
    ps ++ [(key, v)]

/-- Python dict `d.pop(key, None)`: drop the entry with the given key. -/
def dictRemove (ps : Props) (key : String) : Props :=
  ps.filter (fun kv => kv.1 ≠ key)

/-- Python dict lookup `d.get(key)`. -/
def dictGet (ps : Props) (key : String) : Option PropValue :=
  (ps.find? (fun kv => kv.1 = key)).map (fun kv => kv.2)

/-- Squared Euclidean distance between two points. -/
def normSq (p q : Pt) : ℚ :=
  (p.x - q.x) ^ 2 + (p.y - q.y) ^ 2

/-- Squared distance from a point to the closed segment `[a, b]` (the GEOS
point-segment distance): clamp the orthogonal projection parameter to
`[0, 1]` and measure to the resulting segment point. -/
def pointSegDistSq (p a b : Pt) : ℚ :=
  let dx := b.x - a.x
  let dy := b.y - a.y
  let len2 := dx ^ 2 + dy ^ 2
  if len2 = 0 then normSq p a
  else
    let t := ((p.x - a.x) * dx + (p.y - a.y) * dy) / len2
    let c := max 0 (min 1 t)
    normSq p ⟨a.x + c * dx, a.y + c * dy⟩

/-- Orientation determinant of the triple `(a, b, c)`. -/
def orient (a b c : Pt) : ℚ :=
  (b.x - a.x) * (c.y - a.y) - (b.y - a.y) * (c.x - a.x)

/-- Closed segments `[a,b]` and `[c,d]` share a point: either a proper
crossing (strictly opposite orientations on both sides) or an endpoint lying
on the other segment.  This is the exact kernel predicate for segment
intersection. -/
def segIntersectB (a b c d : Pt) : Bool :=
  (decide (orient a b c * orient a b d < 0) && decide (orient c d a * orient c d b < 0))
    || decide (pointSegDistSq c a b = 0) || decide (pointSegDistSq d a b = 0)
    || decide (pointSegDistSq a c d = 0) || decide (pointSegDistSq b c d = 0)

/-- Squared distance between two closed segments: zero when they intersect,
else the minimum of the four endpoint-to-segment distances (the standard
exact characterisation of segment-segment distance). -/
def segSegDistSq (a b c d : Pt) : ℚ :=
  if segIntersectB a b c d then 0
  else
    min (min (pointSegDistSq c a b) (pointSegDistSq d a b))
        (min (pointSegDistSq a c d) (pointSegDistSq b c d))

/-- The consecutive edges of a ring stored with first point repeated last. -/
def edges (r : RingT) : List (Pt × Pt) :=
  r.zip r.tail

/-- All rings of a polygon: the exterior ring followed by the holes. -/
def Polygon.rings (pg : Polygon) : List RingT :=
  pg.exterior :: pg.holes

/-- All edges of all rings of a polygon. -/
def allEdges (pg : Polygon) : List (Pt × Pt) :=
  pg.rings.flatMap edges

/-- The point lies on the given ring (squared distance zero to some edge). -/
def onRingB (p : Pt) (r : RingT) : Bool :=
  (edges r).any (fun e => decide (pointSegDistSq p e.1 e.2 = 0))

/-- The point lies exactly on the polygon's boundary. -/
def onBoundaryB (p : Pt) (pg : Polygon) : Bool :=
  pg.rings.any (onRingB p)

/-- The horizontal ray from `p` towards `+x` crosses the edge `(a, b)`:
the edge straddles the ray's height (half-open rule, so shared vertices are
counted once) and the crossing abscissa lies strictly right of `p`. -/
def crossesRayB (p a b : Pt) : Bool :=
  (decide (a.y > p.y) != decide (b.y > p.y))
    && decide (p.x < a.x + (p.y - a.y) * (b.x - a.x) / (b.y - a.y))

/-- Number of ray crossings contributed by one ring. -/
def ringCrossings (p : Pt) (r : RingT) : Nat :=
  (edges r).countP (fun e => crossesRayB p e.1 e.2)

/-- Total ray crossings over all rings of the polygon. -/
def totalCrossings (p : Pt) (pg : Polygon) : Nat :=
  (pg.rings.map (ringCrossings p)).sum

/-- GEOS `covers(polygon, point)`: the point is on the boundary or in the
interior (even-odd rule). -/
def coversB (pg : Polygon) (p : Pt) : Bool :=
  onBoundaryB p pg || decide (totalCrossings p pg % 2 = 1)

/-- GEOS `contains(polygon, point)` (strict): interior only, boundary
excluded. -/
def containsB (pg : Polygon) (p : Pt) : Bool :=
  !onBoundaryB p pg && decide (totalCrossings p pg % 2 = 1)

/-- Containment of a point by an arbitrary geometry, `covers` flavour. -/
def gCoversB (g : Geometry) (p : Pt) : Bool :=
  match g with
  | .point q => decide (q = p)
  | .polygon pg => coversB pg p

/-- Containment of a point by an arbitrary geometry, strict `contains`
flavour (a point contains an equal point: both have empty boundary). -/
def gContainsB (g : Geometry) (p : Pt) : Bool :=
  match g with
  | .point q => decide (q = p)
  | .polygon pg => containsB pg p

/-- The coordinate list of a geometry (all ring points for polygons). -/
def coordsOf : Geometry → List Pt
  | .point p => [p]
  | .polygon pg => pg.rings.flatMap id

/-- Axis-aligned bounding box `(minx, miny, maxx, maxy)` of a geometry; the
GEOS `bounds` of a nonempty geometry.  (An empty polygon gets a degenerate
box at the origin; validity hypotheses rule that case out.) -/
def boundsOf (g : Geometry) : ℚ × ℚ × ℚ × ℚ :=
  match coordsOf g with
  | [] => (0, 0, 0, 0)
  | c :: cs =>
      (cs.foldl (fun m q => min m q.x) c.x,
       cs.foldl (fun m q => min m q.y) c.y,
       cs.foldl (fun m q => max m q.x) c.x,
       cs.foldl (fun m q => max m q.y) c.y)

/-- The point lies in the closed axis-aligned box. -/
def inBoxB (p : Pt) (b : ℚ × ℚ × ℚ × ℚ) : Bool :=
  decide (b.1 ≤ p.x) && decide (p.x ≤ b.2.2.1)
    && decide (b.2.1 ≤ p.y) && decide (p.y ≤ b.2.2.2)

/-- Minimum of a list of rationals (0 for the empty list; all uses are
guarded by nonemptiness). -/
def minD : List ℚ → ℚ
  | [] => 0
  | x :: xs => xs.foldl min x

/-- A stored ring is closed (first point repeated last) and has at least the
4 points of a closed triangle: the data-model invariant on rings. -/
def RingClosed (r : RingT) : Prop :=
  r.head? = r.getLast? ∧ 4 ≤ r.length

/-- A polygon all of whose rings satisfy the ring invariant. -/
def Polygon.Valid (pg : Polygon) : Prop :=
  ∀ r ∈ pg.rings, RingClosed r

/-- A geometry is valid when its polygon rings are. -/
def Geometry.Valid : Geometry → Prop
  | .point _ => True
  | .polygon pg => pg.Valid

instance (r : RingT) : Decidable (RingClosed r) := by
  unfold RingClosed; infer_instance

instance (pg : Polygon) : Decidable pg.Valid := by
  unfold Polygon.Valid; infer_instance

instance (g : Geometry) : Decidable g.Valid := by
  cases g <;> simp only [Geometry.Valid] <;> infer_instance

instance : Inhabited Geometry := ⟨.point ⟨0, 0⟩⟩

/-- Indexing with a default, modelling Python's `xs[i]` at in-range indices. -/
def nth {α : Type} [Inhabited α] (l : List α) (i : ℕ) : α :=
  l.getD i default

/-- Squared distance from a point to a polygon (the kernel distance): zero
when the polygon covers the point, else the minimum over boundary edges. -/
def ptPolyDistSq (p : Pt) (pg : Polygon) : ℚ :=
  if coversB pg p then 0
  else minD ((allEdges pg).map (fun e => pointSegDistSq p e.1 e.2))

/-- Two polygons share a point: some pair of boundary edges intersects, or
one polygon covers a vertex of the other (the standard exact polygon
intersection test for closed polygons). -/
def polyIntersectB (pg1 pg2 : Polygon) : Bool :=
  (allEdges pg1).any (fun e => (allEdges pg2).any
      (fun f => segIntersectB e.1 e.2 f.1 f.2))
    || (match pg2.exterior.head? with
        | some v => coversB pg1 v
        | none => false)
    || (match pg1.exterior.head? with
        | some v => coversB pg2 v
        | none => false)

/-- Squared kernel distance between two geometries. -/
def geomDistSq : Geometry → Geometry → ℚ
  | .point p, .point q => normSq p q
  | .point p, .polygon pg => ptPolyDistSq p pg
  | .polygon pg, .point p => ptPolyDistSq p pg
  | .polygon pg1, .polygon pg2 =>
      if polyIntersectB pg1 pg2 then 0
      else minD ((allEdges pg1).flatMap (fun e => (allEdges pg2).map
        (fun f => segSegDistSq e.1 e.2 f.1 f.2)))

/-- Kernel `intersects`: the two geometries share at least one point. -/
def geomIntersectsB : Geometry → Geometry → Bool
  | .point p, .point q => decide (p = q)
  | .point p, .polygon pg => coversB pg p
  | .polygon pg, .point p => coversB pg p
  | .polygon pg1, .polygon pg2 => polyIntersectB pg1 pg2

/-- Embedding of `nearest` (src/analysis.py): the kernel's `nearest_points`
returns a witnessing pair at minimal distance, so the returned distance is
exactly the geometry distance; only the (squared) distance component is
needed by the claims. -/
def nearestDistSq (aGeom bGeom : Geometry) : ℚ :=
  geomDistSq aGeom bGeom

/-- Embedding of `STRtree.nearest` (shapely 2.x): the index of a stored
geometry whose true distance to the query is minimal (first such index). -/
def treeNearestIdx (q : Geometry) (ts : List Geometry) : ℕ :=
  (List.range ts.length).foldl
    (fun b i => if geomDistSq q (nth ts i) < geomDistSq q (nth ts b) then i else b) 0

/-- Embedding of `nearest_optimized` (src/analysis.py): build an STRtree over
the collection's geometries, take the tree's nearest entry, and return the
exact (squared) distance to it together with that geometry. -/
def nearest_optimized (searchGeom : Geometry) (fc : FeatureCollection) :
    ℚ × Geometry :=
  let targets := fc.features.map (fun ft => ft.geometry)
  let i := treeNearestIdx searchGeom targets
  (geomDistSq searchGeom (nth targets i), nth targets i)

/-- Embedding of `_iter_point_features` (query.py / knn.py): keep exactly the
features whose geometry is a Point.  (The model's collections are typed, so
the not-a-FeatureCollection error branch is unreachable.) -/
def pointFeatures (fc : FeatureCollection) : List Feature :=
  fc.features.filter (fun ft =>
    match ft.geometry with
    | .point _ => true
    | .polygon _ => false)

/-- The point carried by a point feature (default for non-points; only
applied to features selected by `pointFeatures`). -/
def ptOf (ft : Feature) : Pt :=
  match ft.geometry with
  | .point p => p
  | .polygon _ => default

/-- Embedding of `tag_points_within` (src/geotoolkit/query.py).  The STRtree
query of the indexed path is embedded as its contract: the indices of the
points whose own bounding box (the point) intersects the polygon's bounding
box. -/
def tag_points_within (pointsFc : FeatureCollection) (polygonGeom : Geometry)
    (prop : String) (useIndex : Bool) (mode : String) :
    Except String FeatureCollection :=
  if mode ≠ "contains" ∧ mode ≠ "covers" then
    Except.error "mode must be 'contains' or 'covers'"
  else
    let pfs := pointFeatures pointsFc
    if !useIndex then
      Except.ok ⟨pfs.map (fun ft =>
        let p := ptOf ft
        let inside := if mode = "contains" then gContainsB polygonGeom p
          else gCoversB polygonGeom p
        ⟨dictInsert ft.properties prop (.bool inside), .point p⟩)⟩
    else
      let pts := pfs.map ptOf
      let candIdx := (List.range pts.length).filter
        (fun i => inBoxB (nth pts i) (boundsOf polygonGeom))
      Except.ok ⟨(List.range pfs.length).map (fun i =>
        let ft := nth pfs i
        let p := nth pts i
        let inside := if candIdx.contains i then
            (if mode = "covers" then gCoversB polygonGeom p
             else gContainsB polygonGeom p)
          else false
        ⟨dictInsert ft.properties prop (.bool inside), .point p⟩)⟩

/-- Embedding of `filter_points_within` (src/geotoolkit/query.py): tag with
the internal property name, keep the features tagged `True`, pop the tag. -/
def filter_points_within (pointsFc : FeatureCollection)
    (polygonGeom : Geometry) (useIndex : Bool) (mode : String) :
    Except String FeatureCollection :=
  (tag_points_within pointsFc polygonGeom "_inside" useIndex mode).map
    (fun tagged =>
      let insideFeats := tagged.features.filter
        (fun ft => dictGet ft.properties "_inside" = some (.bool true))
      ⟨insideFeats.map (fun ft =>
        ⟨dictRemove ft.properties "_inside", ft.geometry⟩)⟩)

/-- Embedding of the expanding-radius candidate loop of `knn_points`
(src/geotoolkit/knn.py): up to 8 rounds, query the tree with the bounding
box of `target.buffer(radius)` (the closed square of half-width `radius`
around the target, since the kernel's discretised disk has its axis extremes
on the circle), accumulate the hit set, stop once at least `k` candidates
are collected, else double the radius.  The accumulated Python set is
represented canonically by the ascending list of its members; this fixes
only the set's membership — the order in which the program later iterates
the set is implementation-defined and is treated separately (see
`knnTopkOrd` / `knn_pointsOrd`). -/
def knnLoop (pts : List Pt) (t : Pt) (k : ℤ) :
    ℕ → ℚ → List ℕ → List ℕ
  | 0, _, acc => acc
  | fuel + 1, radius, acc =>
      let box := (t.x - radius, t.y - radius, t.x + radius, t.y + radius)
      let acc2 := (List.range pts.length).filter
        (fun i => acc.contains i || inBoxB (nth pts i) box)
      if k ≤ (acc2.length : ℤ) then acc2
      else knnLoop pts t k fuel (2 * radius) acc2

/-- Candidate indices of `knn_points`: all points on the brute-force path;
on the indexed path the loop's accumulated set when it reached `k` members,
else the fall-back to all points.  The returned list is the canonical
ascending representation of the candidate set; the program iterates this
set in CPython's implementation-defined hash-slot order. -/
def knnCandIdx (pts : List Pt) (t : Pt) (k : ℤ) (useIndex : Bool) :
    List ℕ :=
  if !useIndex then List.range pts.length
  else
    let s := knnLoop pts t k 8 50 []
    if k ≤ (s.length : ℤ) then s else List.range pts.length

/-- Ordering used to model Python's stable `list.sort(key=distance)` on a
distance/index list whose index components are distinct and ascending (the
brute-force path, which iterates `range(len(pts))`, and the ascending
enumeration of the indexed candidate set): there the stable sort by
distance coincides with the total lexicographic order on
(distance, index).  For an arbitrary candidate enumeration see `distLe`. -/
def lexLe (a b : ℚ × ℕ) : Prop :=
  a.1 < b.1 ∨ (a.1 = b.1 ∧ a.2 ≤ b.2)

instance : DecidableRel lexLe := by
  intro a b
  unfold lexLe
  infer_instance

/-- The sorted, truncated (squared-)distance/index list of `knn_points`,
with the candidate set enumerated in ascending index order: distances over
the candidate indices, stable-sorted by distance, first `min k (length)`
entries.  Exact for the brute-force path; for the indexed path's
implementation-defined set-iteration order see `knnTopkOrd`. -/
def knnTopk (fc : FeatureCollection) (t : Pt) (k : ℤ) (useIndex : Bool) :
    List (ℚ × ℕ) :=
  let pts := (pointFeatures fc).map ptOf
  let distList := (knnCandIdx pts t k useIndex).map
    (fun i => (normSq t (nth pts i), i))
  (distList.insertionSort lexLe).take k.toNat

/-- Output feature assembly of `knn_points`: original properties plus
`distance_m` (squared in this model) and the 1-based `knn_rank`. -/
def mkKnnFeature (pfs : List Feature) (d : ℚ) (i : ℕ) (rank : ℕ) : Feature :=
  let ft := nth pfs i
  ⟨dictInsert (dictInsert ft.properties "distance_m" (.num d)) "knn_rank"
      (.num (rank : ℚ)),
    .point (ptOf ft)⟩

/-- Embedding of `knn_points` (src/geotoolkit/knn.py), with the indexed
path's candidate set enumerated in ascending index order; `knn_pointsOrd`
below makes the enumeration explicit. -/
def knn_points (pointsFc : FeatureCollection) (targetPointGeom : Geometry)
    (k : ℤ) (useIndex : Bool) : Except String FeatureCollection :=
  if k ≤ 0 then Except.error "k must be > 0"
  else
    match targetPointGeom with
    | .point t =>
        let pfs := pointFeatures pointsFc
        Except.ok ⟨(knnTopk pointsFc t k useIndex).enum.map
          (fun ri => mkKnnFeature pfs ri.2.1 ri.2.2 (ri.1 + 1))⟩
    | .polygon _ => Except.error "target_point_geom must be a Point geometry"

/-- Python's stable sort ordering for `dist_list.sort(key=lambda x: x[0])`:
compare by the (squared) distance component only; insertion sort under this
relation keeps equal-distance entries in their pre-sort order, which is
exactly the stability guarantee of Python's sort. -/
def distLe (a b : ℚ × ℕ) : Prop :=
  a.1 ≤ b.1

instance : DecidableRel distLe := by
  intro a b
  unfold distLe
  infer_instance

/-- The distance/sort/truncate pipeline of `knn_points` with the candidate
enumeration made explicit.  The source's indexed path iterates a CPython
set (`for i in cand_idx`); CPython enumerates a set in hash-slot order
(identity hash modulo table size for small nonnegative ints), which is
implementation-defined and need not be ascending, so a faithful reading of
the program must admit every enumeration of the candidate set.  The
brute-force path is the instance `cand = range |pts|`. -/
def knnTopkOrd (fc : FeatureCollection) (t : Pt) (k : ℤ) (cand : List ℕ) :
    List (ℚ × ℕ) :=
  ((cand.map (fun i =>
    (normSq t (nth ((pointFeatures fc).map ptOf) i), i))).insertionSort
      distLe).take k.toNat

/-- `knn_points` with the candidate enumeration made explicit (see
`knnTopkOrd`); `knn_points` above is the instance at the ascending
enumeration of the candidate set. -/
def knn_pointsOrd (pointsFc : FeatureCollection) (targetPointGeom : Geometry)
    (k : ℤ) (cand : List ℕ) : Except String FeatureCollection :=
  if k ≤ 0 then Except.error "k must be > 0"
  else
    match targetPointGeom with
    | .point t =>
        Except.ok ⟨(knnTopkOrd pointsFc t k cand).enum.map
          (fun ri => mkKnnFeature (pointFeatures pointsFc) ri.2.1 ri.2.2
            (ri.1 + 1))⟩
    | .polygon _ => Except.error "target_point_geom must be a Point geometry"

/-- Modelled from the spec: `get_bbox` is imported from `geotoolkit.analysis`
by `demo.py` but its definition is not among the provided sources; the
spec's concrete scenario (§8.7) fixes it as the `(minx, miny, maxx, maxy)`
bounding box of the geometry. -/
def get_bbox (g : Geometry) : ℚ × ℚ × ℚ × ℚ :=
  boundsOf g

/-- Twice the signed cross term of one edge (shoelace summand). -/
def edgeCross (e : Pt × Pt) : ℚ :=
  e.1.x * e.2.y - e.2.x * e.1.y

/-- Twice the signed shoelace area of one ring. -/
def ringArea2 (r : RingT) : ℚ :=
  ((edges r).map edgeCross).sum

/-- Twice the signed area of a polygon (holes wound oppositely, per the
GeoJSON ring-orientation convention). -/
def polyArea2 (pg : Polygon) : ℚ :=
  (pg.rings.map ringArea2).sum

/-- Embedding of `get_area` (src/analysis.py): the kernel's unsigned area,
realised by the shoelace formula. -/
def get_area (g : Geometry) : ℚ :=
  match g with
  | .point _ => 0
  | .polygon pg => |polyArea2 pg| / 2

/-- Embedding of `get_centroid` (src/analysis.py): the kernel's area
centroid of a polygon by the standard shoelace moment formula; a point is
its own centroid. -/
def get_centroid (g : Geometry) : Geometry :=
  match g with
  | .point p => .point p
  | .polygon pg =>
      let a2 := polyArea2 pg
      .point
        ⟨((allEdges pg).map (fun e => (e.1.x + e.2.x) * edgeCross e)).sum
            / (3 * a2),
          ((allEdges pg).map (fun e => (e.1.y + e.2.y) * edgeCross e)).sum
            / (3 * a2)⟩

/-- Embedding of `buffer` (src/analysis.py).  The source adapter delegates
to the kernel's round buffer (8 arc segments per quadrant by default),
whose arc vertices are irrational, so the kernel's exact output cannot be
represented over ℚ.  The kernel operation is modelled here by the coarsest
inscribed arc approximation — one segment per quadrant, i.e. the Minkowski
sum with the axis diamond of radius `distM` — applied to the geometry's
bounding box: the octagon cutting each expanded-box corner at distance
`distM` along the axes.  The diamond is inscribed in both the disk and the
kernel's 32-gon, so for a geometry that fills its bounding box (as the
concrete scenario's square does) this octagon is contained in the kernel's
round buffer: an under-approximation, hence any area lower bound proved of
the model transfers soundly to the program's output. -/
def buffer (g : Geometry) (distM : ℚ) : Geometry :=
  let b := boundsOf g
  .polygon
    ⟨[⟨b.1 - distM, b.2.1⟩, ⟨b.1, b.2.1 - distM⟩, ⟨b.2.2.1, b.2.1 - distM⟩,
      ⟨b.2.2.1 + distM, b.2.1⟩, ⟨b.2.2.1 + distM, b.2.2.2⟩,
      ⟨b.2.2.1, b.2.2.2 + distM⟩, ⟨b.1, b.2.2.2 + distM⟩,
      ⟨b.1 - distM, b.2.2.2⟩, ⟨b.1 - distM, b.2.1⟩], []⟩

/-! ### Basic algebraic facts about the squared-distance primitives -/

theorem normSq_nonneg (p q : Pt) : 0 ≤ normSq p q := by
  unfold normSq; positivity

theorem normSq_eq_zero_iff (p q : Pt) : normSq p q = 0 ↔ p = q := by
  unfold normSq
  constructor
  · intro h
    have hx : p.x - q.x = 0 := by nlinarith [sq_nonneg (p.x - q.x), sq_nonneg (p.y - q.y)]
    have hy : p.y - q.y = 0 := by nlinarith [sq_nonneg (p.x - q.x), sq_nonneg (p.y - q.y)]
    cases p; cases q
    simp only [Pt.mk.injEq]
    constructor <;> [linarith; linarith]
  · intro h; subst h; ring

theorem convex_between {t u v : ℚ} (h0 : 0 ≤ t) (h1 : t ≤ 1) :
    min u v ≤ u + t * (v - u) ∧ u + t * (v - u) ≤ max u v := by
  rcases le_total u v with h | h
  · rw [min_eq_left h, max_eq_right h]
    constructor <;> nlinarith
  · rw [min_eq_right h, max_eq_left h]
    constructor <;> nlinarith

theorem pointSegDistSq_nonneg (p a b : Pt) : 0 ≤ pointSegDistSq p a b := by
  simp only [pointSegDistSq]
  split
  · exact normSq_nonneg _ _
  · exact normSq_nonneg _ _

theorem pointSegDistSq_eq_zero_between {p a b : Pt}
    (h : pointSegDistSq p a b = 0) :
    (min a.x b.x ≤ p.x ∧ p.x ≤ max a.x b.x) ∧
      (min a.y b.y ≤ p.y ∧ p.y ≤ max a.y b.y) := by
  simp only [pointSegDistSq] at h
  by_cases hlen : (b.x - a.x) ^ 2 + (b.y - a.y) ^ 2 = 0
  · rw [if_pos hlen] at h
    have hb : b = a := by
      have hx : b.x - a.x = 0 := by nlinarith [sq_nonneg (b.x - a.x), sq_nonneg (b.y - a.y)]
      have hy : b.y - a.y = 0 := by nlinarith [sq_nonneg (b.x - a.x), sq_nonneg (b.y - a.y)]
      cases a; cases b
      simp only [Pt.mk.injEq]
      constructor <;> [linarith; linarith]
    have hpa : p = a := (normSq_eq_zero_iff p a).mp h
    subst hb; subst hpa
    simp
  · rw [if_neg hlen] at h
    set t := ((p.x - a.x) * (b.x - a.x) + (p.y - a.y) * (b.y - a.y)) /
      ((b.x - a.x) ^ 2 + (b.y - a.y) ^ 2) with ht
    set c := max 0 (min 1 t) with hc
    have hp := (normSq_eq_zero_iff p ⟨a.x + c * (b.x - a.x), a.y + c * (b.y - a.y)⟩).mp h
    have h0 : 0 ≤ c := le_max_left 0 _
    have h1 : c ≤ 1 := by
      apply max_le (by norm_num)
      exact min_le_left 1 t
    have hx := convex_between (u := a.x) (v := b.x) h0 h1
    have hy := convex_between (u := a.y) (v := b.y) h0 h1
    have hpx : p.x = a.x + c * (b.x - a.x) := by rw [hp]
    have hpy : p.y = a.y + c * (b.y - a.y) := by rw [hp]
    rw [hpx, hpy]
    exact ⟨hx, hy⟩

theorem segSegDistSq_nonneg (a b c d : Pt) : 0 ≤ segSegDistSq a b c d := by
  unfold segSegDistSq
  split
  · exact le_refl 0
  · exact le_min (le_min (pointSegDistSq_nonneg _ _ _) (pointSegDistSq_nonneg _ _ _))
      (le_min (pointSegDistSq_nonneg _ _ _) (pointSegDistSq_nonneg _ _ _))

theorem segSegDistSq_eq_zero_imp {a b c d : Pt} (h : segSegDistSq a b c d = 0) :
    segIntersectB a b c d = true := by
  unfold segSegDistSq at h
  by_cases hi : segIntersectB a b c d = true
  · exact hi
  · rw [if_neg hi] at h
    exfalso
    apply hi
    unfold segIntersectB
    rcases min_choice (min (pointSegDistSq c a b) (pointSegDistSq d a b))
        (min (pointSegDistSq a c d) (pointSegDistSq b c d)) with h1 | h1 <;>
      rw [h1] at h <;>
      [rcases min_choice (pointSegDistSq c a b) (pointSegDistSq d a b) with h2 | h2;
       rcases min_choice (pointSegDistSq a c d) (pointSegDistSq b c d) with h2 | h2] <;>
      rw [h2] at h <;> simp [h]

/-! ### Minimum of a list of rationals -/

theorem foldl_min_le_init (l : List ℚ) (a : ℚ) : l.foldl min a ≤ a := by
  induction l generalizing a with
  | nil => exact le_refl a
  | cons x xs ih => exact le_trans (ih (min a x)) (min_le_left a x)

theorem foldl_min_le_mem {l : List ℚ} {x : ℚ} (h : x ∈ l) (a : ℚ) :
    l.foldl min a ≤ x := by
  induction l generalizing a with
  | nil => cases h
  | cons y ys ih =>
      rcases List.mem_cons.mp h with rfl | hy
      · exact le_trans (foldl_min_le_init ys (min a x)) (min_le_right a x)
      · exact ih hy (min a y)

theorem foldl_min_mem (l : List ℚ) (a : ℚ) : l.foldl min a ∈ a :: l := by
  induction l generalizing a with
  | nil => simp
  | cons x xs ih =>
      rw [List.foldl_cons]
      have h2 := ih (min a x)
      rcases List.mem_cons.mp h2 with h | h
      · rcases min_choice a x with hm | hm
        · rw [h, hm]; exact List.mem_cons_self _ _
        · rw [h, hm]; exact List.mem_cons.mpr (Or.inr (List.mem_cons_self _ _))
      · exact List.mem_cons.mpr (Or.inr (List.mem_cons.mpr (Or.inr h)))

theorem minD_mem {l : List ℚ} (h : l ≠ []) : minD l ∈ l := by
  match l with
  | [] => exact absurd rfl h
  | x :: xs =>
      unfold minD
      exact foldl_min_mem xs x

theorem minD_nonneg {l : List ℚ} (h : ∀ x ∈ l, 0 ≤ x) : 0 ≤ minD l := by
  match l with
  | [] => simp [minD]
  | x :: xs => exact h _ (minD_mem (by simp))

theorem minD_le {l : List ℚ} {x : ℚ} (h : x ∈ l) : minD l ≤ x := by
  match l with
  | x2 :: xs =>
      unfold minD
      rcases List.mem_cons.mp h with rfl | hx
      · exact foldl_min_le_init xs x
      · exact foldl_min_le_mem hx x2

/-! ### Indexing helpers -/

theorem nth_map {α β : Type} [Inhabited α] [Inhabited β] (f : α → β)
    (l : List α) (i : ℕ) (h : i < l.length) : nth (l.map f) i = f (nth l i) := by
  unfold nth
  rw [List.getD_eq_getElem _ _ (by simpa using h), List.getD_eq_getElem _ _ h]
  simp

theorem map_range_nth {α β : Type} [Inhabited α] (f : α → β) (l : List α) :
    (List.range l.length).map (fun i => f (nth l i)) = l.map f := by
  apply List.ext_getElem
  · simp
  · intro i h1 h2
    simp only [List.getElem_map, List.getElem_range]
    congr 1
    unfold nth
    rw [List.getD_eq_getElem _ _ (by simpa using h2)]

theorem nth_mem {α : Type} [Inhabited α] {l : List α} {i : ℕ}
    (h : i < l.length) : nth l i ∈ l := by
  unfold nth
  rw [List.getD_eq_getElem _ _ h]
  exact List.getElem_mem _

/-! ### Argmin fold (the STRtree nearest contract) -/

theorem foldl_argmin (g : ℕ → ℚ) (l : List ℕ) (b : ℕ) :
    g (l.foldl (fun b2 i => if g i < g b2 then i else b2) b) =
      (l.map g).foldl min (g b) := by
  induction l generalizing b with
  | nil => rfl
  | cons x xs ih =>
      simp only [List.foldl_cons, List.map_cons]
      rw [ih]
      congr 1
      by_cases h : g x < g b
      · rw [if_pos h, min_eq_right (le_of_lt h)]
      · rw [if_neg h, min_eq_left (not_lt.mp h)]

/-! ### Bounding boxes enclose all coordinates -/

theorem foldl_min_comp (f : Pt → ℚ) (l : List Pt) (a : ℚ) :
    l.foldl (fun m q => min m (f q)) a = (l.map f).foldl min a := by
  induction l generalizing a with
  | nil => rfl
  | cons x xs ih => simp [ih]

theorem foldl_max_comp (f : Pt → ℚ) (l : List Pt) (a : ℚ) :
    l.foldl (fun m q => max m (f q)) a = (l.map f).foldl max a := by
  induction l generalizing a with
  | nil => rfl
  | cons x xs ih => simp [ih]

theorem foldl_max_init_le (l : List ℚ) (a : ℚ) : a ≤ l.foldl max a := by
  induction l generalizing a with
  | nil => exact le_refl a
  | cons x xs ih => exact le_trans (le_max_left a x) (ih (max a x))

theorem foldl_max_mem_le {l : List ℚ} {x : ℚ} (h : x ∈ l) (a : ℚ) :
    x ≤ l.foldl max a := by
  induction l generalizing a with
  | nil => cases h
  | cons y ys ih =>
      rcases List.mem_cons.mp h with rfl | hy
      · exact le_trans (le_max_right a x) (foldl_max_init_le ys (max a x))
      · exact ih hy (max a y)

theorem bounds_cons_spec (c0 : Pt) (cs : List Pt) {c : Pt} (hc : c ∈ c0 :: cs) :
    cs.foldl (fun m q => min m q.x) c0.x ≤ c.x ∧
      c.x ≤ cs.foldl (fun m q => max m q.x) c0.x ∧
      cs.foldl (fun m q => min m q.y) c0.y ≤ c.y ∧
      c.y ≤ cs.foldl (fun m q => max m q.y) c0.y := by
  rw [foldl_min_comp (fun q => q.x), foldl_max_comp (fun q => q.x),
    foldl_min_comp (fun q => q.y), foldl_max_comp (fun q => q.y)]
  rcases List.mem_cons.mp hc with rfl | hmem
  · exact ⟨foldl_min_le_init _ _, foldl_max_init_le _ _,
      foldl_min_le_init _ _, foldl_max_init_le _ _⟩
  · exact ⟨foldl_min_le_mem (List.mem_map_of_mem _ hmem) _,
      foldl_max_mem_le (List.mem_map_of_mem _ hmem) _,
      foldl_min_le_mem (List.mem_map_of_mem _ hmem) _,
      foldl_max_mem_le (List.mem_map_of_mem _ hmem) _⟩

theorem boundsOf_spec (g : Geometry) {c : Pt} (hc : c ∈ coordsOf g) :
    (boundsOf g).1 ≤ c.x ∧ c.x ≤ (boundsOf g).2.2.1 ∧
      (boundsOf g).2.1 ≤ c.y ∧ c.y ≤ (boundsOf g).2.2.2 := by
  unfold boundsOf
  rcases hh : coordsOf g with _ | ⟨c0, cs⟩
  · rw [hh] at hc; cases hc
  · rw [hh] at hc
    have := bounds_cons_spec c0 cs hc
    simp only []
    exact ⟨this.1, this.2.1, this.2.2.1, this.2.2.2⟩

theorem mem_coords_of_mem_ring {pg : Polygon} {r : RingT} {c : Pt}
    (hr : r ∈ pg.rings) (hc : c ∈ r) : c ∈ coordsOf (.polygon pg) := by
  unfold coordsOf
  exact List.mem_flatMap.mpr ⟨r, hr, hc⟩

/-! ### Parity of ray crossings along a closed ring -/

theorem countP_changes_parity (f : Pt → Bool) (a : Pt) (l : List Pt) :
    ((a :: l).zip l).countP (fun e => f e.1 != f e.2) % 2 =
      (if f a = f (l.getLastD a) then 0 else 1) := by
  induction l generalizing a with
  | nil => simp
  | cons b t ih =>
      simp only [List.zip_cons_cons, List.countP_cons, List.getLastD_cons]
      have hrec := ih b
      cases hA : f a <;> cases hB : f b <;> cases hL : f (t.getLastD b) <;>
        rw [hB, hL] at hrec <;> norm_num at hrec ⊢ <;> omega

theorem countP_edges_even (f : Pt → Bool) (r : RingT)
    (hr : r.head? = r.getLast?) :
    (edges r).countP (fun e => f e.1 != f e.2) % 2 = 0 := by
  match r with
  | [] => simp [edges]
  | a :: l =>
      unfold edges
      simp only [List.tail_cons]
      rw [countP_changes_parity]
      have hlast : f (l.getLastD a) = f a := by
        match l with
        | [] => simp
        | b :: t =>
            have h2 : (b :: t).getLast? = some a := by
              rw [← List.getLast?_cons_cons (a := a)]
              simp only [List.head?_cons] at hr
              exact hr.symm
            simp [List.getLastD_eq_getLast?, h2]
      rw [hlast]
      simp

/-! ### The crossing abscissa lies within the edge's x-range -/

theorem xint_between {p a b : Pt}
    (hst : (decide (a.y > p.y) != decide (b.y > p.y)) = true) :
    min a.x b.x ≤ a.x + (p.y - a.y) * (b.x - a.x) / (b.y - a.y) ∧
      a.x + (p.y - a.y) * (b.x - a.x) / (b.y - a.y) ≤ max a.x b.x := by
  rw [mul_div_right_comm]
  by_cases hay : p.y < a.y <;> by_cases hby : p.y < b.y
  · exfalso; simp [hay, hby] at hst
  · -- a above the ray, b at or below: the edge descends across the ray
    have h0 : 0 ≤ (p.y - a.y) / (b.y - a.y) :=
      div_nonneg_iff.mpr (Or.inr ⟨by linarith, by linarith⟩)
    have h1 : (p.y - a.y) / (b.y - a.y) ≤ 1 := by
      rw [div_le_one_iff]
      exact Or.inr (Or.inr ⟨by linarith, by linarith⟩)
    exact convex_between h0 h1
  · -- a at or below the ray, b above: the edge ascends across the ray
    have h0 : 0 ≤ (p.y - a.y) / (b.y - a.y) :=
      div_nonneg (by linarith) (by linarith)
    have h1 : (p.y - a.y) / (b.y - a.y) ≤ 1 :=
      (div_le_one (by linarith)).mpr (by linarith)
    exact convex_between h0 h1
  · exfalso; simp [hay, hby] at hst

/-! ### Points outside the bounding box are neither on nor inside -/

theorem onBoundary_inBox {pg : Polygon} {p : Pt}
    (hon : onBoundaryB p pg = true) :
    inBoxB p (boundsOf (.polygon pg)) = true := by
  unfold onBoundaryB at hon
  rcases List.any_eq_true.mp hon with ⟨r, hr, hrr⟩
  unfold onRingB at hrr
  rcases List.any_eq_true.mp hrr with ⟨e, he, hee⟩
  obtain ⟨a, b⟩ := e
  unfold edges at he
  have hz : pointSegDistSq p a b = 0 := of_decide_eq_true hee
  have hbt := pointSegDistSq_eq_zero_between hz
  have h1 : a ∈ r := (List.of_mem_zip he).1
  have h2 : b ∈ r := List.tail_subset r (List.of_mem_zip he).2
  have hc1 := boundsOf_spec (.polygon pg) (mem_coords_of_mem_ring hr h1)
  have hc2 := boundsOf_spec (.polygon pg) (mem_coords_of_mem_ring hr h2)
  have hx1 : (boundsOf (.polygon pg)).1 ≤ p.x :=
    le_trans (le_min hc1.1 hc2.1) hbt.1.1
  have hx2 : p.x ≤ (boundsOf (.polygon pg)).2.2.1 :=
    le_trans hbt.1.2 (max_le hc1.2.1 hc2.2.1)
  have hy1 : (boundsOf (.polygon pg)).2.1 ≤ p.y :=
    le_trans (le_min hc1.2.2.1 hc2.2.2.1) hbt.2.1
  have hy2 : p.y ≤ (boundsOf (.polygon pg)).2.2.2 :=
    le_trans hbt.2.2 (max_le hc1.2.2.2 hc2.2.2.2)
  unfold inBoxB
  simp [hx1, hx2, hy1, hy2]

theorem sum_even_of_each {l : List ℕ} (h : ∀ x ∈ l, x % 2 = 0) :
    l.sum % 2 = 0 := by
  induction l with
  | nil => rfl
  | cons x xs ih =>
      rw [List.sum_cons, Nat.add_mod, h x (List.mem_cons_self x xs),
        ih (fun y hy => h y (List.mem_cons.mpr (Or.inr hy)))]

theorem totalCrossings_even_of_not_inBox {pg : Polygon} {p : Pt}
    (hv : pg.Valid) (hb : inBoxB p (boundsOf (.polygon pg)) = false) :
    totalCrossings p pg % 2 = 0 := by
  have hfail : p.x < (boundsOf (.polygon pg)).1 ∨
      (boundsOf (.polygon pg)).2.2.1 < p.x ∨
      p.y < (boundsOf (.polygon pg)).2.1 ∨
      (boundsOf (.polygon pg)).2.2.2 < p.y := by
    by_contra hcon
    push_neg at hcon
    have hin : inBoxB p (boundsOf (.polygon pg)) = true := by
      unfold inBoxB
      simp [hcon.1, hcon.2.1, hcon.2.2.1, hcon.2.2.2]
    rw [hin] at hb
    exact Bool.noConfusion hb
  have heach : ∀ r ∈ pg.rings, ringCrossings p r % 2 = 0 := by
    intro r hr
    have hclosed := (hv r hr).1
    have hcoord : ∀ c ∈ r, (boundsOf (.polygon pg)).1 ≤ c.x ∧
        c.x ≤ (boundsOf (.polygon pg)).2.2.1 ∧
        (boundsOf (.polygon pg)).2.1 ≤ c.y ∧
        c.y ≤ (boundsOf (.polygon pg)).2.2.2 :=
      fun c hc => boundsOf_spec _ (mem_coords_of_mem_ring hr hc)
    have hedge : ∀ e ∈ edges r, e.1 ∈ r ∧ e.2 ∈ r := by
      intro e he
      obtain ⟨a, b⟩ := e
      unfold edges at he
      exact ⟨(List.of_mem_zip he).1, List.tail_subset r (List.of_mem_zip he).2⟩
    rcases hfail with hf | hf | hf | hf
    · -- the point is left of the whole box: crossings = straddles, even
      unfold ringCrossings
      rw [List.countP_congr
          (q := fun e => (fun v => decide (v.y > p.y)) e.1 !=
            (fun v => decide (v.y > p.y)) e.2) ?_]
      · exact countP_edges_even (fun v => decide (v.y > p.y)) r hclosed
      · intro e he
        obtain ⟨ha, hb2⟩ := hedge e he
        constructor
        · intro hcr2
          have hcr3 := hcr2
          simp only [crossesRayB, Bool.and_eq_true] at hcr3
          exact hcr3.1
        · intro hst
          unfold crossesRayB
          rw [Bool.and_eq_true]
          refine ⟨hst, decide_eq_true ?_⟩
          have hxb := xint_between (p := p) (a := e.1) (b := e.2) hst
          exact lt_of_lt_of_le hf
            (le_trans (le_min (hcoord e.1 ha).1 (hcoord e.2 hb2).1) hxb.1)
    · -- the point is right of the whole box: no crossing at all
      unfold ringCrossings
      rw [List.countP_eq_zero.mpr ?_]
      intro e he hcr2
      obtain ⟨ha, hb2⟩ := hedge e he
      unfold crossesRayB at hcr2
      simp only [Bool.and_eq_true] at hcr2
      have hlt : p.x < e.1.x + (p.y - e.1.y) * (e.2.x - e.1.x) / (e.2.y - e.1.y) :=
        of_decide_eq_true hcr2.2
      have hxb := xint_between hcr2.1
      have hle : e.1.x + (p.y - e.1.y) * (e.2.x - e.1.x) / (e.2.y - e.1.y) ≤
          (boundsOf (.polygon pg)).2.2.1 :=
        le_trans hxb.2 (max_le (hcoord e.1 ha).2.1 (hcoord e.2 hb2).2.1)
      linarith
    · -- the point is below the whole box: no edge straddles the ray height
      unfold ringCrossings
      rw [List.countP_eq_zero.mpr ?_]
      intro e he hcr2
      obtain ⟨ha, hb2⟩ := hedge e he
      unfold crossesRayB at hcr2
      simp only [Bool.and_eq_true] at hcr2
      have hst := hcr2.1
      have hy1 : p.y < e.1.y := lt_of_lt_of_le hf (hcoord e.1 ha).2.2.1
      have hy2 : p.y < e.2.y := lt_of_lt_of_le hf (hcoord e.2 hb2).2.2.1
      simp [hy1, hy2] at hst
    · -- the point is above the whole box: no edge straddles the ray height
      unfold ringCrossings
      rw [List.countP_eq_zero.mpr ?_]
      intro e he hcr2
      obtain ⟨ha, hb2⟩ := hedge e he
      unfold crossesRayB at hcr2
      simp only [Bool.and_eq_true] at hcr2
      have hst := hcr2.1
      have hy1 : ¬ (p.y < e.1.y) :=
        not_lt.mpr (le_of_lt (lt_of_le_of_lt (hcoord e.1 ha).2.2.2 hf))
      have hy2 : ¬ (p.y < e.2.y) :=
        not_lt.mpr (le_of_lt (lt_of_le_of_lt (hcoord e.2 hb2).2.2.2 hf))
      simp [hy1, hy2] at hst
  unfold totalCrossings
  apply sum_even_of_each
  intro x hx
  rcases List.mem_map.mp hx with ⟨r, hr, rfl⟩
  exact heach r hr

theorem coversB_eq_false_of_not_inBox {pg : Polygon} {p : Pt} (hv : pg.Valid)
    (hb : inBoxB p (boundsOf (.polygon pg)) = false) : coversB pg p = false := by
  have hob : onBoundaryB p pg = false := by
    cases hcase : onBoundaryB p pg
    · rfl
    · rw [onBoundary_inBox hcase] at hb
      exact Bool.noConfusion hb
  have hcr := totalCrossings_even_of_not_inBox hv hb
  unfold coversB
  rw [hob, hcr]
  simp

theorem containsB_eq_false_of_coversB {pg : Polygon} {p : Pt}
    (h : coversB pg p = false) : containsB pg p = false := by
  unfold coversB at h
  unfold containsB
  rcases Bool.or_eq_false_iff.mp h with ⟨_, h2⟩
  rw [h2]
  simp

theorem contains_iff_mem {l : List ℕ} {a : ℕ} : l.contains a = true ↔ a ∈ l :=
  List.elem_iff

/-! ### Both tagging paths compute the same tagged collection -/

/-- The containment predicate selected by a valid `mode` argument. -/
def predMode (mode : String) (g : Geometry) (p : Pt) : Bool :=
  if mode = "contains" then gContainsB g p else gCoversB g p

theorem tag_eq_map {pg : Polygon} (fc : FeatureCollection) (prop mode : String)
    (ui : Bool) (hv : pg.Valid) (hm : mode = "contains" ∨ mode = "covers") :
    tag_points_within fc (.polygon pg) prop ui mode =
      Except.ok ⟨(pointFeatures fc).map (fun ft =>
        ⟨dictInsert ft.properties prop
            (.bool (predMode mode (.polygon pg) (ptOf ft))),
          .point (ptOf ft)⟩)⟩ := by
  have hmok : ¬ (mode ≠ "contains" ∧ mode ≠ "covers") := by
    rcases hm with rfl | rfl <;> simp
  cases ui
  · unfold tag_points_within
    rw [if_neg hmok]
    rfl
  · unfold tag_points_within
    rw [if_neg hmok]
    simp only [Bool.not_true]
    rw [if_neg Bool.false_ne_true]
    refine congrArg Except.ok (congrArg FeatureCollection.mk ?_)
    rw [← map_range_nth (fun ft =>
      (⟨dictInsert ft.properties prop
          (.bool (predMode mode (.polygon pg) (ptOf ft))),
        .point (ptOf ft)⟩ : Feature)) (pointFeatures fc)]
    apply List.map_congr_left
    intro i hi
    have hilen : i < (pointFeatures fc).length := List.mem_range.mp hi
    have hilen2 : i < ((pointFeatures fc).map ptOf).length := by
      rw [List.length_map]; exact hilen
    have hnth : nth ((pointFeatures fc).map ptOf) i =
        ptOf (nth (pointFeatures fc) i) := nth_map _ _ _ hilen
    rw [hnth]
    congr 2
    -- it remains to identify the inside flag with the selected predicate
    by_cases hbox : inBoxB (ptOf (nth (pointFeatures fc) i))
        (boundsOf (.polygon pg)) = true
    · have hcont : ((List.range ((pointFeatures fc).map ptOf).length).filter
          (fun j => inBoxB (nth ((pointFeatures fc).map ptOf) j)
            (boundsOf (.polygon pg)))).contains i = true := by
        rw [contains_iff_mem]
        refine List.mem_filter.mpr ⟨List.mem_range.mpr hilen2, ?_⟩
        rw [hnth]
        exact hbox
      rw [hcont]
      simp only [if_true]
      unfold predMode
      rcases hm with rfl | rfl
      · rw [if_neg (by decide), if_pos rfl]
      · rw [if_pos rfl, if_neg (by decide)]
    · have hboxf : inBoxB (ptOf (nth (pointFeatures fc) i))
          (boundsOf (.polygon pg)) = false := Bool.eq_false_iff.mpr hbox
      have hcont : ((List.range ((pointFeatures fc).map ptOf).length).filter
          (fun j => inBoxB (nth ((pointFeatures fc).map ptOf) j)
            (boundsOf (.polygon pg)))).contains i = false := by
        rw [Bool.eq_false_iff]
        intro hc
        rcases List.mem_filter.mp (contains_iff_mem.mp hc) with ⟨_, hpred⟩
        rw [hnth] at hpred
        exact hbox hpred
      rw [hcont]
      simp only [Bool.false_eq_true, if_false]
      have hcov : coversB pg (ptOf (nth (pointFeatures fc) i)) = false :=
        coversB_eq_false_of_not_inBox hv hboxf
      have hcnt : containsB pg (ptOf (nth (pointFeatures fc) i)) = false :=
        containsB_eq_false_of_coversB hcov
      unfold predMode
      rcases hm with rfl | rfl
      · rw [if_pos rfl]
        exact congrArg PropValue.bool hcnt.symm
      · rw [if_neg (by decide)]
        exact congrArg PropValue.bool hcov.symm

/-! ### Dictionary lemmas -/

theorem dictGet_dictInsert (ps : Props) (key : String) (v : PropValue) :
    dictGet (dictInsert ps key v) key = some v := by
  unfold dictInsert dictGet
  by_cases h : ps.any (fun kv => decide (kv.1 = key)) = true
  · rw [if_pos h]
    have hsome : (ps.find? (fun kv => decide (kv.1 = key))).isSome := by
      rw [List.find?_isSome]
      rcases List.any_eq_true.mp h with ⟨x, hx, hpx⟩
      exact ⟨x, hx, hpx⟩
    obtain ⟨x0, hx0⟩ := Option.isSome_iff_exists.mp hsome
    have hx0p : x0.1 = key := by
      have hfs := List.find?_some (p := fun kv : String × PropValue =>
        decide (kv.1 = key)) hx0
      exact of_decide_eq_true hfs
    rw [List.find?_map]
    have hcomp : ((fun kv : String × PropValue => decide (kv.1 = key)) ∘
        (fun kv => if kv.1 = key then (key, v) else kv)) =
        fun kv => decide (kv.1 = key) := by
      funext kv
      by_cases hk : kv.1 = key <;> simp [hk]
    rw [hcomp, hx0]
    simp [hx0p]
  · rw [if_neg h]
    have hnone : ps.find? (fun kv => decide (kv.1 = key)) = none := by
      rw [List.find?_eq_none]
      intro x hx hdec
      exact h (List.any_eq_true.mpr ⟨x, hx, hdec⟩)
    rw [List.find?_append, hnone]
    simp

theorem dictRemove_dictInsert (ps : Props) (key : String) (v : PropValue)
    (h : ∀ kv ∈ ps, kv.1 ≠ key) : dictRemove (dictInsert ps key v) key = ps := by
  unfold dictInsert dictRemove
  have hany : ¬ ps.any (fun kv => decide (kv.1 = key)) = true := by
    intro hc
    rcases List.any_eq_true.mp hc with ⟨x, hx, hpx⟩
    exact h x hx (of_decide_eq_true hpx)
  rw [if_neg hany, List.filter_append]
  have h1 : ps.filter (fun kv => decide (kv.1 ≠ key)) = ps :=
    List.filter_eq_self.mpr (fun kv hkv => decide_eq_true (h kv hkv))
  have h2 : ([(key, v)] : Props).filter (fun kv => decide (kv.1 ≠ key)) = [] := by
    simp
  rw [h1, h2, List.append_nil]

theorem mem_pointFeatures_geometry {fc : FeatureCollection} {ft : Feature}
    (h : ft ∈ pointFeatures fc) : ft.geometry = .point (ptOf ft) := by
  have hp := List.of_mem_filter h
  unfold ptOf
  cases hg : ft.geometry with
  | point p => rfl
  | polygon pg => rw [hg] at hp; simp at hp

/-! ### Shared concrete fixtures for witnesses and counterexamples -/

/-- The square polygon with corners (0,0),(10,0),(10,10),(0,10). -/
def sqPoly : Polygon := ⟨[⟨0,0⟩, ⟨10,0⟩, ⟨10,10⟩, ⟨0,10⟩, ⟨0,0⟩], []⟩

/-- Three point features: interior (5,5), boundary (0,0), exterior (20,20). -/
def fcTest : FeatureCollection := ⟨[
  ⟨[("id", .num 1)], .point ⟨5,5⟩⟩,
  ⟨[("id", .num 2)], .point ⟨0,0⟩⟩,
  ⟨[("id", .num 3)], .point ⟨20,20⟩⟩]⟩

theorem sqPoly_valid : sqPoly.Valid := by
  intro r hr
  unfold sqPoly Polygon.rings at hr
  simp only [List.mem_cons] at hr
  rcases hr with rfl | hr
  · exact ⟨by decide, by decide⟩
  · simp at hr

/-- Claim C3: for every point FeatureCollection P, polygon G and mode m in
{contains, covers}, the indexed path of tag_points_within produces exactly
the same output (in particular the same boolean tag sequence, in the same
feature order) as the brute-force path. -/
theorem C3_tag_index_equiv {pg : Polygon} (fc : FeatureCollection)
    (prop mode : String) (hv : pg.Valid)
    (hm : mode = "contains" ∨ mode = "covers") :
    tag_points_within fc (.polygon pg) prop true mode =
      tag_points_within fc (.polygon pg) prop false mode := by
  rw [tag_eq_map fc prop mode true hv hm, tag_eq_map fc prop mode false hv hm]

/-- Witness for C3 at the square polygon and the three-point collection. -/
theorem C3_tag_index_equiv_witness :
    sqPoly.Valid ∧
      tag_points_within fcTest (.polygon sqPoly) "inside" true "covers" =
        tag_points_within fcTest (.polygon sqPoly) "inside" false "covers" :=
  ⟨sqPoly_valid,
    C3_tag_index_equiv fcTest "inside" "covers" sqPoly_valid (Or.inr rfl)⟩

/-- Claim C4: a point lying exactly on a polygon's boundary is tagged false
under mode "contains" and true under mode "covers", on the brute-force and
on the indexed path alike. -/
theorem C4_boundary_semantics {pg : Polygon} {p : Pt} (fc : FeatureCollection)
    (prop : String) (ui : Bool) (i : ℕ) (hv : pg.Valid)
    (hb : onBoundaryB p pg = true) (hi : i < (pointFeatures fc).length)
    (hp : ptOf (nth (pointFeatures fc) i) = p) :
    ∃ outC outV,
      tag_points_within fc (.polygon pg) prop ui "contains" = .ok outC ∧
      tag_points_within fc (.polygon pg) prop ui "covers" = .ok outV ∧
      dictGet (nth outC.features i).properties prop = some (.bool false) ∧
      dictGet (nth outV.features i).properties prop = some (.bool true) := by
  refine ⟨_, _, tag_eq_map fc prop "contains" ui hv (Or.inl rfl),
    tag_eq_map fc prop "covers" ui hv (Or.inr rfl), ?_, ?_⟩
  · rw [nth_map _ _ _ hi]
    rw [dictGet_dictInsert]
    unfold predMode
    rw [if_pos rfl]
    have : gContainsB (.polygon pg) (ptOf (nth (pointFeatures fc) i)) = false := by
      show containsB pg (ptOf (nth (pointFeatures fc) i)) = false
      unfold containsB
      rw [hp, hb]
      simp
    rw [this]
  · rw [nth_map _ _ _ hi]
    rw [dictGet_dictInsert]
    unfold predMode
    rw [if_neg (by decide)]
    have : gCoversB (.polygon pg) (ptOf (nth (pointFeatures fc) i)) = true := by
      show coversB pg (ptOf (nth (pointFeatures fc) i)) = true
      unfold coversB
      rw [hp, hb]
      simp
    rw [this]

/-- Witness for C4: the boundary corner (0,0) of the square, at position 1
of the point features of the three-point collection, under both paths. -/
theorem C4_boundary_semantics_witness :
    onBoundaryB ⟨0,0⟩ sqPoly = true ∧
      (∃ outC outV,
        tag_points_within fcTest (.polygon sqPoly) "inside" true "contains" = .ok outC ∧
        tag_points_within fcTest (.polygon sqPoly) "inside" true "covers" = .ok outV ∧
        dictGet (nth outC.features 1).properties "inside" = some (.bool false) ∧
        dictGet (nth outV.features 1).properties "inside" = some (.bool true)) := by
  have hb : onBoundaryB ⟨0,0⟩ sqPoly = true := by
    unfold onBoundaryB sqPoly Polygon.rings onRingB edges
    norm_num [pointSegDistSq, normSq]
  exact ⟨hb, C4_boundary_semantics fcTest "inside" true 1 sqPoly_valid hb
    (by norm_num [pointFeatures, fcTest]) (by norm_num [pointFeatures, fcTest, nth, ptOf])⟩

/-- Claim C7: k ≤ 0 in knn_points, and a mode outside {contains, covers} in
tag_points_within, each surface an immediate typed error to the caller; the
invalid value is never coerced into a default. -/
theorem C7_input_validation :
    (∀ (fc : FeatureCollection) (t : Geometry) (ui : Bool) (k : ℤ),
      k ≤ 0 → knn_points fc t k ui = .error "k must be > 0") ∧
    (∀ (fc : FeatureCollection) (g : Geometry) (prop : String) (ui : Bool)
      (mode : String), mode ≠ "contains" → mode ≠ "covers" →
      tag_points_within fc g prop ui mode =
        .error "mode must be 'contains' or 'covers'") := by
  constructor
  · intro fc t ui k hk
    unfold knn_points
    rw [if_pos hk]
  · intro fc g prop ui mode h1 h2
    unfold tag_points_within
    rw [if_pos ⟨h1, h2⟩]

/-- Witness for C7: k = 0 and the invalid mode "within". -/
theorem C7_input_validation_witness :
    knn_points fcTest (.point ⟨0,0⟩) 0 false = .error "k must be > 0" ∧
      tag_points_within fcTest (.polygon sqPoly) "inside" false "within" =
        .error "mode must be 'contains' or 'covers'" :=
  ⟨C7_input_validation.1 fcTest (.point ⟨0,0⟩) false 0 (by norm_num),
    C7_input_validation.2 fcTest (.polygon sqPoly) "inside" false "within"
      (by decide) (by decide)⟩

/-! ### Claim C6: filtering semantics of filter_points_within -/

/-- One point feature inside the square whose input properties already use
the reserved internal key "_inside". -/
def fcReserved : FeatureCollection :=
  ⟨[⟨[("_inside", .str "keep")], .point ⟨5,5⟩⟩]⟩

/-- The square polygon covers its center (5,5). -/
theorem coversB_sq_center : coversB sqPoly ⟨5,5⟩ = true := by
  norm_num [coversB, onBoundaryB, onRingB, edges, Polygon.rings, sqPoly,
    pointSegDistSq, normSq, totalCrossings, ringCrossings, crossesRayB]

/-- Counterexample to C6 as stated: when an input feature already carries a
property named "_inside", filter_points_within deletes that property from
the output, so the output property set differs from the input property
set. -/
theorem C6_counterexample :
    filter_points_within fcReserved (.polygon sqPoly) false "covers" =
      .ok ⟨[⟨[], .point ⟨5,5⟩⟩]⟩ ∧
      ([] : Props) ≠ [("_inside", PropValue.str "keep")] := by
  constructor
  · unfold filter_points_within
    rw [tag_eq_map fcReserved "_inside" "covers" false sqPoly_valid
      (Or.inr rfl)]
    have hpred : predMode "covers" (.polygon sqPoly) ⟨5,5⟩ = true := by
      unfold predMode
      rw [if_neg (by decide)]
      exact coversB_sq_center
    show Except.ok _ = _
    refine congrArg Except.ok (congrArg FeatureCollection.mk ?_)
    simp only [pointFeatures, fcReserved, List.filter, ptOf, List.map]
    norm_num [ptOf, hpred, dictInsert, dictGet, dictRemove]
  · simp

/-- Claim C6 (amended): filter_points_within returns exactly the subset of
point features tagged true — each output feature being the input feature
itself, properties untouched — provided no input point feature already uses
the internal key "_inside" (a feature that does loses exactly that key, as
the counterexample shows). -/
theorem C6_filter_props_preserved {pg : Polygon} (fc : FeatureCollection)
    (ui : Bool) (mode : String) (hv : pg.Valid)
    (hm : mode = "contains" ∨ mode = "covers")
    (hkeys : ∀ ft ∈ pointFeatures fc, ∀ kv ∈ ft.properties, kv.1 ≠ "_inside") :
    filter_points_within fc (.polygon pg) ui mode =
      .ok ⟨(pointFeatures fc).filter
        (fun ft => predMode mode (.polygon pg) (ptOf ft))⟩ := by
  unfold filter_points_within
  rw [tag_eq_map fc "_inside" mode ui hv hm]
  show Except.ok _ = _
  refine congrArg Except.ok (congrArg FeatureCollection.mk ?_)
  rw [List.filter_map, List.map_map]
  rw [List.filter_congr (q := fun ft => predMode mode (.polygon pg) (ptOf ft))
    ?_]
  · rw [List.map_congr_left (g := id) ?_, List.map_id]
    intro ft hft
    have hmem := List.mem_of_mem_filter hft
    show (⟨dictRemove (dictInsert ft.properties "_inside"
        (.bool (predMode mode (.polygon pg) (ptOf ft)))) "_inside",
      Geometry.point (ptOf ft)⟩ : Feature) = ft
    rw [dictRemove_dictInsert _ _ _ (hkeys ft hmem),
      ← mem_pointFeatures_geometry hmem]
  · intro ft hft
    show decide (dictGet (dictInsert ft.properties "_inside"
        (.bool (predMode mode (.polygon pg) (ptOf ft)))) "_inside" =
          some (.bool true)) = _
    rw [dictGet_dictInsert]
    cases hpv : predMode mode (.polygon pg) (ptOf ft) <;> simp [hpv]

/-- Witness for the amended C6 at the three-point collection (whose
properties do not use the reserved key), indexed covers path. -/
theorem C6_filter_props_preserved_witness :
    (∀ ft ∈ pointFeatures fcTest, ∀ kv ∈ ft.properties, kv.1 ≠ "_inside") ∧
      filter_points_within fcTest (.polygon sqPoly) true "covers" =
        .ok ⟨(pointFeatures fcTest).filter
          (fun ft => predMode "covers" (.polygon sqPoly) (ptOf ft))⟩ :=
  ⟨by decide, C6_filter_props_preserved fcTest true "covers" sqPoly_valid
    (Or.inr rfl) (by decide)⟩

/-! ### The knn pipeline -/

instance : IsTrans (ℚ × ℕ) lexLe := by
  constructor
  intro a b c hab hbc
  unfold lexLe at *
  rcases hab with h1 | ⟨h1, h2⟩ <;> rcases hbc with h3 | ⟨h3, h4⟩
  · exact Or.inl (lt_trans h1 h3)
  · exact Or.inl (h3 ▸ h1)
  · exact Or.inl (h1 ▸ h3)
  · exact Or.inr ⟨h1.trans h3, le_trans h2 h4⟩

instance : IsTotal (ℚ × ℕ) lexLe := by
  constructor
  intro a b
  unfold lexLe
  rcases lt_trichotomy a.1 b.1 with h | h | h
  · exact Or.inl (Or.inl h)
  · rcases le_total a.2 b.2 with h2 | h2
    · exact Or.inl (Or.inr ⟨h, h2⟩)
    · exact Or.inr (Or.inr ⟨h.symm, h2⟩)
  · exact Or.inr (Or.inl h)

theorem knnLoop_length_le (pts : List Pt) (t : Pt) (k : ℤ) (fuel : ℕ)
    (radius : ℚ) (acc : List ℕ) (h : acc.length ≤ pts.length) :
    (knnLoop pts t k fuel radius acc).length ≤ pts.length := by
  induction fuel generalizing radius acc with
  | zero => exact h
  | succ n ih =>
      simp only [knnLoop]
      have hlen : ((List.range pts.length).filter (fun i =>
          acc.contains i || inBoxB (nth pts i)
            (t.x - radius, t.y - radius, t.x + radius, t.y + radius))).length ≤
          pts.length := by
        calc _ ≤ (List.range pts.length).length := List.length_filter_le _ _
        _ = pts.length := List.length_range _
      split
      · exact hlen
      · exact ih _ _ hlen

theorem knnLoop_mem_lt (pts : List Pt) (t : Pt) (k : ℤ) (fuel : ℕ)
    (radius : ℚ) (acc : List ℕ) (h : ∀ i ∈ acc, i < pts.length) :
    ∀ i ∈ knnLoop pts t k fuel radius acc, i < pts.length := by
  induction fuel generalizing radius acc with
  | zero => exact h
  | succ n ih =>
      simp only [knnLoop]
      have hmem : ∀ i ∈ (List.range pts.length).filter (fun i =>
          acc.contains i || inBoxB (nth pts i)
            (t.x - radius, t.y - radius, t.x + radius, t.y + radius)),
          i < pts.length := by
        intro i hi
        exact List.mem_range.mp (List.mem_of_mem_filter hi)
      split
      · exact hmem
      · exact ih _ _ hmem

theorem knnLoop_nodup (pts : List Pt) (t : Pt) (k : ℤ) (fuel : ℕ)
    (radius : ℚ) (acc : List ℕ) (h : acc.Nodup) :
    (knnLoop pts t k fuel radius acc).Nodup := by
  induction fuel generalizing radius acc with
  | zero => exact h
  | succ n ih =>
      simp only [knnLoop]
      have hnd : ((List.range pts.length).filter (fun i =>
          acc.contains i || inBoxB (nth pts i)
            (t.x - radius, t.y - radius, t.x + radius, t.y + radius))).Nodup :=
        (List.nodup_range _).filter _
      split
      · exact hnd
      · exact ih _ _ hnd

theorem knnCandIdx_mem_lt (pts : List Pt) (t : Pt) (k : ℤ) (ui : Bool) :
    ∀ i ∈ knnCandIdx pts t k ui, i < pts.length := by
  simp only [knnCandIdx]
  split
  · intro i hi
    exact List.mem_range.mp hi
  · split
    · exact knnLoop_mem_lt pts t k 8 50 [] (by simp)
    · intro i hi
      exact List.mem_range.mp hi

theorem knnCandIdx_length_le (pts : List Pt) (t : Pt) (k : ℤ) (ui : Bool) :
    (knnCandIdx pts t k ui).length ≤ pts.length := by
  simp only [knnCandIdx]
  split
  · rw [List.length_range]
  · split
    · exact knnLoop_length_le pts t k 8 50 [] (by simp)
    · rw [List.length_range]

theorem knnCandIdx_nodup (pts : List Pt) (t : Pt) (k : ℤ) (ui : Bool) :
    (knnCandIdx pts t k ui).Nodup := by
  simp only [knnCandIdx]
  split
  · exact List.nodup_range _
  · split
    · exact knnLoop_nodup pts t k 8 50 [] List.nodup_nil
    · exact List.nodup_range _

theorem knnTopk_sorted (fc : FeatureCollection) (t : Pt) (k : ℤ) (ui : Bool) :
    List.Sorted lexLe (knnTopk fc t k ui) := by
  unfold knnTopk
  exact (List.sorted_insertionSort lexLe _).sublist (List.take_sublist _ _)

theorem knnTopk_length (fc : FeatureCollection) (t : Pt) (k : ℤ) (ui : Bool)
    (hk : 1 ≤ k) :
    (knnTopk fc t k ui).length = min k.toNat (pointFeatures fc).length := by
  simp only [knnTopk]
  rw [List.length_take,
    (List.perm_insertionSort lexLe _).length_eq, List.length_map]
  have hplen : ((pointFeatures fc).map ptOf).length = (pointFeatures fc).length :=
    List.length_map _ _
  simp only [knnCandIdx]
  split
  · rw [List.length_range, hplen]
  · split
    case isTrue h =>
      have hsle : (knnLoop ((pointFeatures fc).map ptOf) t k 8 50 []).length ≤
          (pointFeatures fc).length := by
        rw [← hplen]
        exact knnLoop_length_le _ t k 8 50 [] (by simp)
      omega
    case isFalse h =>
      rw [List.length_range, hplen]

theorem knnTopk_mem (fc : FeatureCollection) (t : Pt) (k : ℤ) (ui : Bool)
    {pr : ℚ × ℕ} (h : pr ∈ knnTopk fc t k ui) :
    pr.1 = normSq t (nth ((pointFeatures fc).map ptOf) pr.2) ∧
      pr.2 < (pointFeatures fc).length := by
  unfold knnTopk at h
  have h2 := (List.perm_insertionSort lexLe _).mem_iff.mp
    (List.mem_of_mem_take h)
  rcases List.mem_map.mp h2 with ⟨i, hi, rfl⟩
  refine ⟨rfl, ?_⟩
  have := knnCandIdx_mem_lt ((pointFeatures fc).map ptOf) t k ui i hi
  rw [List.length_map] at this
  exact this

theorem knnTopk_snd_nodup (fc : FeatureCollection) (t : Pt) (k : ℤ)
    (ui : Bool) : ((knnTopk fc t k ui).map Prod.snd).Nodup := by
  simp only [knnTopk]
  rw [List.map_take]
  refine List.Nodup.sublist (List.take_sublist _ _) ?_
  have hperm := ((List.perm_insertionSort lexLe
    ((knnCandIdx ((pointFeatures fc).map ptOf) t k ui).map
      (fun i => (normSq t (nth ((pointFeatures fc).map ptOf) i), i)))).map
    Prod.snd)
  rw [List.Perm.nodup_iff hperm, List.map_map]
  have : (Prod.snd ∘ fun i =>
      (normSq t (nth ((pointFeatures fc).map ptOf) i), i)) = id := rfl
  rw [this, List.map_id]
  exact knnCandIdx_nodup _ t k ui

theorem knn_points_eq (fc : FeatureCollection) (t : Pt) (k : ℤ) (ui : Bool)
    (hk : 1 ≤ k) :
    knn_points fc (.point t) k ui =
      .ok ⟨(knnTopk fc t k ui).enum.map
        (fun ri => mkKnnFeature (pointFeatures fc) ri.2.1 ri.2.2 (ri.1 + 1))⟩ := by
  unfold knn_points
  rw [if_neg (by omega)]

instance : IsTrans (ℚ × ℕ) distLe :=
  ⟨fun _ _ _ hab hbc => le_trans hab hbc⟩

instance : IsTotal (ℚ × ℕ) distLe :=
  ⟨fun a b => le_total a.1 b.1⟩

theorem knnTopkOrd_sorted (fc : FeatureCollection) (t : Pt) (k : ℤ)
    (cand : List ℕ) : List.Sorted distLe (knnTopkOrd fc t k cand) := by
  unfold knnTopkOrd
  exact (List.sorted_insertionSort distLe _).sublist (List.take_sublist _ _)

theorem knnTopkOrd_mem (fc : FeatureCollection) (t : Pt) (k : ℤ)
    (cand : List ℕ) (hc : ∀ i ∈ cand, i < (pointFeatures fc).length)
    {pr : ℚ × ℕ} (h : pr ∈ knnTopkOrd fc t k cand) :
    pr.1 = normSq t (nth ((pointFeatures fc).map ptOf) pr.2) ∧
      pr.2 < (pointFeatures fc).length := by
  unfold knnTopkOrd at h
  have h2 := (List.perm_insertionSort distLe _).mem_iff.mp
    (List.mem_of_mem_take h)
  rcases List.mem_map.mp h2 with ⟨i, hi, rfl⟩
  exact ⟨rfl, hc i hi⟩

theorem knnTopkOrd_length (fc : FeatureCollection) (t : Pt) (k : ℤ)
    (cand : List ℕ) :
    (knnTopkOrd fc t k cand).length = min k.toNat cand.length := by
  unfold knnTopkOrd
  rw [List.length_take, (List.perm_insertionSort distLe _).length_eq,
    List.length_map]

theorem knnCandIdx_min_len (pts : List Pt) (t : Pt) (k : ℤ) (ui : Bool)
    (hk : 1 ≤ k) :
    min k.toNat (knnCandIdx pts t k ui).length = min k.toNat pts.length := by
  simp only [knnCandIdx]
  split
  · rw [List.length_range]
  · split
    case isTrue h =>
      have hsle : (knnLoop pts t k 8 50 []).length ≤ pts.length :=
        knnLoop_length_le pts t k 8 50 [] (by simp)
      omega
    case isFalse h =>
      rw [List.length_range]

theorem knn_pointsOrd_eq (fc : FeatureCollection) (t : Pt) (k : ℤ)
    (cand : List ℕ) (hk : 1 ≤ k) :
    knn_pointsOrd fc (.point t) k cand =
      .ok ⟨(knnTopkOrd fc t k cand).enum.map
        (fun ri => mkKnnFeature (pointFeatures fc) ri.2.1 ri.2.2
          (ri.1 + 1))⟩ := by
  unfold knn_pointsOrd
  rw [if_neg (by omega)]

/-- The knn unit-test fixture: ids 1,2,3 at (0,0),(1,0),(5,0). -/
def fcKnn : FeatureCollection := ⟨[
  ⟨[("id", .num 1)], .point ⟨0,0⟩⟩,
  ⟨[("id", .num 2)], .point ⟨1,0⟩⟩,
  ⟨[("id", .num 3)], .point ⟨5,0⟩⟩]⟩

/-- Nine point features; only indices 1 (at (49,0)) and 8 (at (-49,0))
fall in the first 50-unit query box, and they are equidistant from the
target (0,0). -/
def fcTie : FeatureCollection := ⟨[
  ⟨[("id", .num 1)], .point ⟨300,300⟩⟩,
  ⟨[("id", .num 2)], .point ⟨49,0⟩⟩,
  ⟨[("id", .num 3)], .point ⟨300,302⟩⟩,
  ⟨[("id", .num 4)], .point ⟨300,303⟩⟩,
  ⟨[("id", .num 5)], .point ⟨300,304⟩⟩,
  ⟨[("id", .num 6)], .point ⟨300,305⟩⟩,
  ⟨[("id", .num 7)], .point ⟨300,306⟩⟩,
  ⟨[("id", .num 8)], .point ⟨300,307⟩⟩,
  ⟨[("id", .num 9)], .point ⟨-49,0⟩⟩]⟩

/-- Counterexample to C5 as stated: at this input the indexed candidate
loop computes the candidate set {1, 8} (canonically [1, 8]); CPython
enumerates the set {1, 8} as [8, 1] (for small nonnegative ints the hash is
the identity and the initial table has 8 slots, so 8 occupies slot 0 and 1
slot 1), a permutation of the candidate set; under that enumeration the
stable sort by distance keeps the two equidistant entries in enumeration
order, and the program emits rank 1 = input index 8 (id 9) before rank 2 =
input index 1 (id 2) — breaking the claimed original-input-order tie-break,
which the ascending enumeration (last conjunct) would satisfy. -/
theorem C5_counterexample :
    knnCandIdx ((pointFeatures fcTie).map ptOf) ⟨0,0⟩ 2 true = [1, 8] ∧
    List.Perm [8, 1] [1, 8] ∧
    (knn_pointsOrd fcTie (.point ⟨0,0⟩) 2 [8, 1]).map
        (fun c => c.features.map (fun ft => ft.properties)) =
      .ok [[("id", .num 9), ("distance_m", .num 2401), ("knn_rank", .num 1)],
        [("id", .num 2), ("distance_m", .num 2401), ("knn_rank", .num 2)]] ∧
    (knn_points fcTie (.point ⟨0,0⟩) 2 true).map
        (fun c => c.features.map (fun ft => ft.properties)) =
      .ok [[("id", .num 2), ("distance_m", .num 2401), ("knn_rank", .num 1)],
        [("id", .num 9), ("distance_m", .num 2401), ("knn_rank", .num 2)]] := by
  refine ⟨?_, List.Perm.swap 1 8 [], ?_, ?_⟩
  · norm_num [knnCandIdx, knnLoop, pointFeatures, fcTie, ptOf, nth, inBoxB]
    decide
  · norm_num [knn_pointsOrd, knnTopkOrd, pointFeatures, fcTie, ptOf, nth,
      normSq, mkKnnFeature, dictInsert, distLe, List.insertionSort,
      List.orderedInsert, List.enum, List.enumFrom, Except.map]
    decide
  · norm_num [knn_points, knnTopk, knnCandIdx, knnLoop, pointFeatures,
      fcTie, ptOf, nth, inBoxB, normSq, mkKnnFeature, dictInsert, lexLe,
      List.insertionSort, List.orderedInsert, List.enum, List.enumFrom,
      Except.map]
    decide

/-- Claim C5 (amended): for a Point target and k ≥ 1, knn_points succeeds
on both paths, its output features are assembled in order from the top-k
(squared-)distance/index list annotated with 1-based ranks, the list is
ascending by distance, each carried distance is the true (squared) distance
to the target, and the output length is min k |P| for P the retained point
features (all of them, ranked, when fewer than k exist).  On the
brute-force path the candidates are iterated in input order, so distance
ties are broken by original input order (lexicographic sortedness over
pairwise-distinct input positions).  On the indexed path the candidate set
is iterated in CPython's implementation-defined set order: for every
enumeration of that set the same ascending/rank/length contract holds, but
distance ties follow the enumeration order, which need not be the input
order (see the counterexample). -/
theorem C5_knn_contract_amended (fc : FeatureCollection) (t : Pt) (k : ℤ)
    (hk : 1 ≤ k) :
    (∃ out, knn_points fc (.point t) k false = .ok out ∧
      out.features = (knnTopk fc t k false).enum.map
        (fun ri => mkKnnFeature (pointFeatures fc) ri.2.1 ri.2.2 (ri.1 + 1)) ∧
      List.Sorted lexLe (knnTopk fc t k false) ∧
      ((knnTopk fc t k false).map Prod.snd).Nodup ∧
      (∀ pr ∈ knnTopk fc t k false,
        pr.1 = normSq t (nth ((pointFeatures fc).map ptOf) pr.2)) ∧
      out.features.length = min k.toNat (pointFeatures fc).length) ∧
    (∀ cand : List ℕ,
      cand.Perm (knnCandIdx ((pointFeatures fc).map ptOf) t k true) →
      ∃ out, knn_pointsOrd fc (.point t) k cand = .ok out ∧
        out.features = (knnTopkOrd fc t k cand).enum.map
          (fun ri => mkKnnFeature (pointFeatures fc) ri.2.1 ri.2.2 (ri.1 + 1)) ∧
        List.Sorted distLe (knnTopkOrd fc t k cand) ∧
        (∀ pr ∈ knnTopkOrd fc t k cand,
          pr.1 = normSq t (nth ((pointFeatures fc).map ptOf) pr.2)) ∧
        out.features.length = min k.toNat (pointFeatures fc).length) := by
  constructor
  · refine ⟨_, knn_points_eq fc t k false hk, rfl,
      knnTopk_sorted fc t k false, knnTopk_snd_nodup fc t k false,
      (fun pr hpr => (knnTopk_mem fc t k false hpr).1), ?_⟩
    rw [List.length_map, List.enum_length, knnTopk_length fc t k false hk]
  · intro cand hperm
    have hc : ∀ i ∈ cand, i < (pointFeatures fc).length := by
      intro i hi
      have h2 := knnCandIdx_mem_lt ((pointFeatures fc).map ptOf) t k true i
        (hperm.mem_iff.mp hi)
      rw [List.length_map] at h2
      exact h2
    refine ⟨_, knn_pointsOrd_eq fc t k cand hk, rfl,
      knnTopkOrd_sorted fc t k cand,
      (fun pr hpr => (knnTopkOrd_mem fc t k cand hc hpr).1), ?_⟩
    rw [List.length_map, List.enum_length, knnTopkOrd_length fc t k cand,
      hperm.length_eq]
    have h3 := knnCandIdx_min_len ((pointFeatures fc).map ptOf) t k true hk
    rw [List.length_map] at h3
    exact h3

/-- Witness for the amended C5 at the knn unit-test fixture, k = 2. -/
theorem C5_knn_contract_amended_witness :
    (1 : ℤ) ≤ 2 ∧
      ((∃ out, knn_points fcKnn (.point ⟨0,0⟩) 2 false = .ok out ∧
        out.features = (knnTopk fcKnn ⟨0,0⟩ 2 false).enum.map
          (fun ri => mkKnnFeature (pointFeatures fcKnn) ri.2.1 ri.2.2
            (ri.1 + 1)) ∧
        List.Sorted lexLe (knnTopk fcKnn ⟨0,0⟩ 2 false) ∧
        ((knnTopk fcKnn ⟨0,0⟩ 2 false).map Prod.snd).Nodup ∧
        (∀ pr ∈ knnTopk fcKnn ⟨0,0⟩ 2 false,
          pr.1 = normSq ⟨0,0⟩ (nth ((pointFeatures fcKnn).map ptOf) pr.2)) ∧
        out.features.length = min (2 : ℤ).toNat (pointFeatures fcKnn).length) ∧
      (∀ cand : List ℕ,
        cand.Perm (knnCandIdx ((pointFeatures fcKnn).map ptOf) ⟨0,0⟩ 2 true) →
        ∃ out, knn_pointsOrd fcKnn (.point ⟨0,0⟩) 2 cand = .ok out ∧
          out.features = (knnTopkOrd fcKnn ⟨0,0⟩ 2 cand).enum.map
            (fun ri => mkKnnFeature (pointFeatures fcKnn) ri.2.1 ri.2.2
              (ri.1 + 1)) ∧
          List.Sorted distLe (knnTopkOrd fcKnn ⟨0,0⟩ 2 cand) ∧
          (∀ pr ∈ knnTopkOrd fcKnn ⟨0,0⟩ 2 cand,
            pr.1 = normSq ⟨0,0⟩ (nth ((pointFeatures fcKnn).map ptOf) pr.2)) ∧
          out.features.length =
            min (2 : ℤ).toNat (pointFeatures fcKnn).length)) :=
  ⟨by norm_num, C5_knn_contract_amended fcKnn ⟨0,0⟩ 2 (by norm_num)⟩

/-- Failing input for C2: the target is (0,0); the point (49,49) lies in the
first 50-unit query box, the nearer point (0,60) does not. -/
def fcBug : FeatureCollection := ⟨[
  ⟨[("id", .num 1)], .point ⟨49,49⟩⟩,
  ⟨[("id", .num 2)], .point ⟨0,60⟩⟩]⟩

/-- C2 is violated by the code (code bug): at the failing input with k = 1,
the indexed path returns the point (49,49) — squared distance 4802, true
distance √4802 ≈ 69.3 — while the brute-force path returns the true nearest
point (0,60) at squared distance 3600 (distance 60).  The expanding-radius
loop stops as soon as the square query box holds k candidates, although a
point outside the box can be Euclidean-nearer than a box corner. -/
theorem C2_knn_index_divergence :
    knn_points fcBug (.point ⟨0,0⟩) 1 true =
      .ok ⟨[⟨[("id", .num 1), ("distance_m", .num 4802), ("knn_rank", .num 1)],
        .point ⟨49,49⟩⟩]⟩ ∧
    knn_points fcBug (.point ⟨0,0⟩) 1 false =
      .ok ⟨[⟨[("id", .num 2), ("distance_m", .num 3600), ("knn_rank", .num 1)],
        .point ⟨0,60⟩⟩]⟩ := by
  constructor <;>
    norm_num [knn_points, knnTopk, knnCandIdx, knnLoop, pointFeatures, fcBug,
      ptOf, nth, inBoxB, normSq, mkKnnFeature, dictInsert, lexLe,
      List.insertionSort, List.orderedInsert, List.enum, List.enumFrom] <;>
    decide

/-! ### Claim C10: non-Point features are dropped; output order -/

/-- Two point features stored in decreasing-distance order from the
origin. -/
def fcOrd : FeatureCollection := ⟨[
  ⟨[("id", .num 1)], .point ⟨5,0⟩⟩,
  ⟨[("id", .num 2)], .point ⟨1,0⟩⟩]⟩

/-- Counterexample to C10 as stated: knn_points outputs only Point features
drawn from the input, but ordered by ascending distance — here the two
retained points come out in the reverse of their input order, so the
relative input order is not preserved by knn_points. -/
theorem C10_counterexample :
    (knn_points fcOrd (.point ⟨0,0⟩) 2 false).map
        (fun c => c.features.map (fun ft => ft.geometry)) =
      .ok [.point ⟨1,0⟩, .point ⟨5,0⟩] ∧
    (pointFeatures fcOrd).map (fun ft => ft.geometry) =
      [.point ⟨5,0⟩, .point ⟨1,0⟩] ∧
    (Geometry.point ⟨1,0⟩ : Geometry) ≠ .point ⟨5,0⟩ := by
  refine ⟨?_, by decide, by decide⟩
  norm_num [knn_points, knnTopk, knnCandIdx, pointFeatures, fcOrd,
    ptOf, nth, normSq, mkKnnFeature, dictInsert, lexLe,
    List.insertionSort, List.orderedInsert, List.enum, List.enumFrom,
    Except.map]

/-- Both paths of tag_points_within output exactly the retained input
points, in input order, as geometries (for any target geometry). -/
theorem tag_geoms (fc : FeatureCollection) (g : Geometry) (prop : String)
    (ui : Bool) (mode : String)
    (hm : mode = "contains" ∨ mode = "covers") :
    ∃ outT, tag_points_within fc g prop ui mode = .ok outT ∧
      outT.features.map (fun ft => ft.geometry) =
        (pointFeatures fc).map (fun ft => .point (ptOf ft)) := by
  have hmok : ¬ (mode ≠ "contains" ∧ mode ≠ "covers") := by
    rcases hm with rfl | rfl <;> simp
  cases ui
  case false =>
    have heq : tag_points_within fc g prop false mode =
        .ok ⟨(pointFeatures fc).map (fun ft =>
          (⟨dictInsert ft.properties prop (.bool
              (if mode = "contains" then gContainsB g (ptOf ft)
               else gCoversB g (ptOf ft))),
            .point (ptOf ft)⟩ : Feature))⟩ := by
      unfold tag_points_within
      rw [if_neg hmok]
      rfl
    refine ⟨_, heq, ?_⟩
    rw [List.map_map]
    rfl
  case true =>
    have heq : tag_points_within fc g prop true mode =
        .ok ⟨(List.range (pointFeatures fc).length).map (fun i =>
          (⟨dictInsert (nth (pointFeatures fc) i).properties prop (.bool
              (if ((List.range ((pointFeatures fc).map ptOf).length).filter
                  (fun j => inBoxB (nth ((pointFeatures fc).map ptOf) j)
                    (boundsOf g))).contains i then
                (if mode = "covers" then
                  gCoversB g (nth ((pointFeatures fc).map ptOf) i)
                 else gContainsB g (nth ((pointFeatures fc).map ptOf) i))
               else false)),
            .point (nth ((pointFeatures fc).map ptOf) i)⟩ : Feature))⟩ := by
      unfold tag_points_within
      rw [if_neg hmok]
      rfl
    refine ⟨_, heq, ?_⟩
    rw [List.map_map]
    calc (List.range (pointFeatures fc).length).map _
        = (List.range (pointFeatures fc).length).map
            (fun i => Geometry.point (nth ((pointFeatures fc).map ptOf) i)) := rfl
      _ = (List.range (pointFeatures fc).length).map
            (fun i => Geometry.point (ptOf (nth (pointFeatures fc) i))) := by
          apply List.map_congr_left
          intro i hi
          rw [nth_map _ _ _ (List.mem_range.mp hi)]
      _ = (pointFeatures fc).map (fun ft => .point (ptOf ft)) :=
          map_range_nth (fun ft => Geometry.point (ptOf ft)) (pointFeatures fc)

/-- Claim C10 (amended): tag_points_within, filter_points_within and
knn_points never fail on valid mode/k/target arguments and silently drop
every non-Point feature: the tagging output lists exactly the retained
points in input order, the filtering output is an order-preserving sublist
of them, and every knn output feature is one of the retained points — but
knn_points orders its output by ascending distance rank, not by input
order (see the counterexample). -/
theorem C10_amended (fc : FeatureCollection) (g : Geometry) (prop : String)
    (mode : String) (ui : Bool) (t : Pt) (k : ℤ)
    (hm : mode = "contains" ∨ mode = "covers") (hk : 1 ≤ k) :
    (∃ outT, tag_points_within fc g prop ui mode = .ok outT ∧
      outT.features.map (fun ft => ft.geometry) =
        (pointFeatures fc).map (fun ft => .point (ptOf ft))) ∧
    (∃ outF, filter_points_within fc g ui mode = .ok outF ∧
      (outF.features.map (fun ft => ft.geometry)).Sublist
        ((pointFeatures fc).map (fun ft => .point (ptOf ft)))) ∧
    (∃ outK, knn_points fc (.point t) k ui = .ok outK ∧
      ∀ ft ∈ outK.features, ft.geometry ∈
        (pointFeatures fc).map (fun f2 => Geometry.point (ptOf f2))) := by
  obtain ⟨outT2, hT2, hTg2⟩ := tag_geoms fc g "_inside" ui mode hm
  have hF : filter_points_within fc g ui mode =
      .ok ⟨(outT2.features.filter (fun ft =>
        decide (dictGet ft.properties "_inside" = some (.bool true)))).map
          (fun ft => (⟨dictRemove ft.properties "_inside",
            ft.geometry⟩ : Feature))⟩ := by
    unfold filter_points_within
    rw [hT2]
    rfl
  refine ⟨tag_geoms fc g prop ui mode hm, ⟨_, hF, ?_⟩,
    ⟨_, knn_points_eq fc t k ui hk, ?_⟩⟩
  · rw [List.map_map]
    have hcomp : (outT2.features.filter (fun ft =>
        decide (dictGet ft.properties "_inside" = some (.bool true)))).map
          ((fun ft => ft.geometry) ∘ (fun ft =>
            (⟨dictRemove ft.properties "_inside", ft.geometry⟩ : Feature))) =
        (outT2.features.filter (fun ft =>
          decide (dictGet ft.properties "_inside" = some (.bool true)))).map
          (fun ft => ft.geometry) := rfl
    rw [hcomp, ← hTg2]
    exact (List.filter_sublist _).map _
  · intro ft hft
    rcases List.mem_map.mp hft with ⟨ri, hri, rfl⟩
    obtain ⟨r, pr⟩ := ri
    have hri2 : (r, pr) ∈ List.enumFrom 0 (knnTopk fc t k ui) := hri
    have h3 := List.mem_enumFrom hri2
    have hprmem : pr ∈ knnTopk fc t k ui := by
      rw [h3.2.2]
      exact List.getElem_mem _
    have hlt := (knnTopk_mem fc t k ui hprmem).2
    exact List.mem_map.mpr ⟨nth (pointFeatures fc) pr.2, nth_mem hlt, rfl⟩

/-- Witness for the amended C10 at the three-point collection (square
polygon target, indexed paths, k = 2). -/
theorem C10_amended_witness :
    (∃ outT, tag_points_within fcTest (.polygon sqPoly) "inside" true "covers" =
        .ok outT ∧
      outT.features.map (fun ft => ft.geometry) =
        (pointFeatures fcTest).map (fun ft => .point (ptOf ft))) ∧
    (∃ outF, filter_points_within fcTest (.polygon sqPoly) true "covers" =
        .ok outF ∧
      (outF.features.map (fun ft => ft.geometry)).Sublist
        ((pointFeatures fcTest).map (fun ft => .point (ptOf ft)))) ∧
    (∃ outK, knn_points fcTest (.point ⟨0,0⟩) 2 true = .ok outK ∧
      ∀ ft ∈ outK.features, ft.geometry ∈
        (pointFeatures fcTest).map (fun f2 => Geometry.point (ptOf f2))) :=
  C10_amended fcTest (.polygon sqPoly) "inside" "covers" true ⟨0,0⟩ 2
    (Or.inr rfl) (by norm_num)

/-! ### Claim C1: index-accelerated nearest equals the brute-force minimum -/

theorem treeNearestIdx_dist (q : Geometry) (ts : List Geometry)
    (hne : ts ≠ []) :
    geomDistSq q (nth ts (treeNearestIdx q ts)) = minD (ts.map (geomDistSq q)) := by
  unfold treeNearestIdx
  rw [foldl_argmin (fun i => geomDistSq q (nth ts i))]
  rw [map_range_nth (fun g2 => geomDistSq q g2) ts]
  match ts, hne with
  | t0 :: ts2, _ =>
      rw [List.map_cons, List.foldl_cons]
      have h0 : nth (t0 :: ts2) 0 = t0 := rfl
      rw [h0, min_self]
      rfl

/-- Claim C1: for every non-empty target collection and query geometry, the
(squared) distance returned by the index-accelerated nearest_optimized
equals exactly the minimum over the collection of the brute-force nearest
distances — hence the true distances agree exactly, a fortiori within the
1e-6 tolerance. -/
theorem C1_nearest_indexed_equiv (q : Geometry) (fc : FeatureCollection)
    (hne : fc.features ≠ []) :
    (nearest_optimized q fc).1 =
      minD (fc.features.map (fun ft => nearestDistSq q ft.geometry)) := by
  have htne : fc.features.map (fun ft => ft.geometry) ≠ [] := by
    simp [hne]
  have h := treeNearestIdx_dist q (fc.features.map (fun ft => ft.geometry)) htne
  show geomDistSq q (nth (fc.features.map (fun ft => ft.geometry))
      (treeNearestIdx q (fc.features.map (fun ft => ft.geometry)))) = _
  rw [h, List.map_map]
  rfl

/-- A mixed collection: the square polygon and the point (16,5). -/
def fcGeoms : FeatureCollection :=
  ⟨[⟨[], .polygon sqPoly⟩, ⟨[], .point ⟨16,5⟩⟩]⟩

/-- Witness for C1: the query point (15,5) against the mixed collection. -/
theorem C1_nearest_indexed_equiv_witness :
    fcGeoms.features ≠ [] ∧
      (nearest_optimized (.point ⟨15,5⟩) fcGeoms).1 =
        minD (fcGeoms.features.map
          (fun ft => nearestDistSq (.point ⟨15,5⟩) ft.geometry)) :=
  ⟨by decide, C1_nearest_indexed_equiv (.point ⟨15,5⟩) fcGeoms (by decide)⟩

/-! ### Claim C8: nonnegativity and the zero-distance characterisation -/

theorem edges_ne_nil_of_closed {r : RingT} (h : RingClosed r) :
    edges r ≠ [] := by
  obtain ⟨h1, h2⟩ := h
  match r with
  | [] => simp at h2
  | [a] => simp at h2
  | a :: b :: rest =>
      unfold edges
      simp [List.zip_cons_cons]

theorem allEdges_ne_nil {pg : Polygon} (hv : pg.Valid) : allEdges pg ≠ [] := by
  unfold allEdges
  have hext : RingClosed pg.exterior :=
    hv pg.exterior (List.mem_cons_self _ _)
  unfold Polygon.rings
  rw [List.flatMap_cons]
  intro hc
  rcases List.append_eq_nil.mp hc with ⟨h1, _⟩
  exact edges_ne_nil_of_closed hext h1

theorem ptPolyDistSq_nonneg (p : Pt) (pg : Polygon) : 0 ≤ ptPolyDistSq p pg := by
  unfold ptPolyDistSq
  split
  · exact le_refl 0
  · apply minD_nonneg
    intro x hx
    rcases List.mem_map.mp hx with ⟨e, he, rfl⟩
    exact pointSegDistSq_nonneg _ _ _

theorem ptPolyDistSq_eq_zero_iff {p : Pt} {pg : Polygon} (hv : pg.Valid) :
    ptPolyDistSq p pg = 0 ↔ coversB pg p = true := by
  unfold ptPolyDistSq
  constructor
  · intro h
    by_cases hc : coversB pg p = true
    · exact hc
    · rw [if_neg hc] at h
      exfalso
      have hne : (allEdges pg).map (fun e => pointSegDistSq p e.1 e.2) ≠ [] := by
        intro hnil
        exact allEdges_ne_nil hv (List.map_eq_nil_iff.mp hnil)
      have hmem := minD_mem hne
      rw [h] at hmem
      rcases List.mem_map.mp hmem with ⟨e, he, hez⟩
      rcases List.mem_flatMap.mp he with ⟨r, hr, her⟩
      have honr : onRingB p r = true :=
        List.any_eq_true.mpr ⟨e, her, decide_eq_true hez⟩
      have honb : onBoundaryB p pg = true :=
        List.any_eq_true.mpr ⟨r, hr, honr⟩
      apply hc
      unfold coversB
      rw [honb]
      simp
  · intro h
    rw [if_pos h]

/-- Claim C8: the distance returned by nearest is always nonnegative and
vanishes exactly when the two geometries intersect (stated on the squared
distance; since the distance is the nonnegative square root, the
nonnegativity and the zero characterisation transfer verbatim). -/
theorem C8_nearest_nonneg_zero_iff (a b : Geometry) (ha : a.Valid)
    (hb : b.Valid) :
    0 ≤ nearestDistSq a b ∧
      (nearestDistSq a b = 0 ↔ geomIntersectsB a b = true) := by
  unfold nearestDistSq
  cases a with
  | point p =>
      cases b with
      | point q =>
          refine ⟨normSq_nonneg p q, ?_⟩
          show normSq p q = 0 ↔ decide (p = q) = true
          rw [normSq_eq_zero_iff]
          constructor
          · intro h; exact decide_eq_true h
          · intro h; exact of_decide_eq_true h
      | polygon pg =>
          exact ⟨ptPolyDistSq_nonneg p pg, ptPolyDistSq_eq_zero_iff hb⟩
  | polygon pg =>
      cases b with
      | point q =>
          exact ⟨ptPolyDistSq_nonneg q pg, ptPolyDistSq_eq_zero_iff ha⟩
      | polygon pg2 =>
          have hred : geomDistSq (.polygon pg) (.polygon pg2) =
              (if polyIntersectB pg pg2 then 0
               else minD ((allEdges pg).flatMap (fun e => (allEdges pg2).map
                 (fun f => segSegDistSq e.1 e.2 f.1 f.2)))) := rfl
          have hred2 : geomIntersectsB (.polygon pg) (.polygon pg2) =
              polyIntersectB pg pg2 := rfl
          rw [hred, hred2]
          constructor
          · split
            · exact le_refl 0
            · apply minD_nonneg
              intro x hx
              rcases List.mem_flatMap.mp hx with ⟨e, he, hx2⟩
              rcases List.mem_map.mp hx2 with ⟨f, hf, rfl⟩
              exact segSegDistSq_nonneg _ _ _ _
          · constructor
            · intro h
              by_cases hI : polyIntersectB pg pg2 = true
              · exact hI
              · rw [if_neg hI] at h
                exfalso
                obtain ⟨e0, he0⟩ := List.exists_mem_of_ne_nil _ (allEdges_ne_nil ha)
                obtain ⟨f0, hf0⟩ := List.exists_mem_of_ne_nil _ (allEdges_ne_nil hb)
                have hmem0 : segSegDistSq e0.1 e0.2 f0.1 f0.2 ∈
                    (allEdges pg).flatMap (fun e => (allEdges pg2).map
                      (fun f => segSegDistSq e.1 e.2 f.1 f.2)) :=
                  List.mem_flatMap.mpr ⟨e0, he0,
                    List.mem_map.mpr ⟨f0, hf0, rfl⟩⟩
                have hne : (allEdges pg).flatMap (fun e => (allEdges pg2).map
                    (fun f => segSegDistSq e.1 e.2 f.1 f.2)) ≠ [] :=
                  List.ne_nil_of_mem hmem0
                have hmem := minD_mem hne
                rw [h] at hmem
                rcases List.mem_flatMap.mp hmem with ⟨e, he, hx2⟩
                rcases List.mem_map.mp hx2 with ⟨f, hf, hez⟩
                have hseg : segIntersectB e.1 e.2 f.1 f.2 = true :=
                  segSegDistSq_eq_zero_imp hez
                apply hI
                unfold polyIntersectB
                have hany : (allEdges pg).any (fun e2 => (allEdges pg2).any
                    (fun f2 => segIntersectB e2.1 e2.2 f2.1 f2.2)) = true :=
                  List.any_eq_true.mpr ⟨e, he,
                    List.any_eq_true.mpr ⟨f, hf, hseg⟩⟩
                rw [hany]
                simp
            · intro hI
              rw [if_pos hI]

/-- Witness for C8: the point (15,5) and the square polygon. -/
theorem C8_nearest_nonneg_zero_iff_witness :
    (Geometry.point ⟨15,5⟩).Valid ∧ (Geometry.polygon sqPoly).Valid ∧
      (0 ≤ nearestDistSq (.point ⟨15,5⟩) (.polygon sqPoly) ∧
        (nearestDistSq (.point ⟨15,5⟩) (.polygon sqPoly) = 0 ↔
          geomIntersectsB (.point ⟨15,5⟩) (.polygon sqPoly) = true)) :=
  ⟨trivial, sqPoly_valid,
    C8_nearest_nonneg_zero_iff (.point ⟨15,5⟩) (.polygon sqPoly) trivial
      sqPoly_valid⟩

/-! ### Claim C9: the concrete square scenario -/

/-- Claim C9: on the square with corners (0,0),(10,0),(10,10),(0,10):
get_bbox returns (0,0,10,10); get_centroid returns the point (5,5); the
buffer by 5 has area strictly greater than 100; and the nearest distance
between the point (15,5) and the square is exactly 5.0 — equivalently, the
squared distance is exactly 25. -/
theorem C9_concrete_scenario :
    get_bbox (.polygon sqPoly) = (0, 0, 10, 10) ∧
    get_centroid (.polygon sqPoly) = .point ⟨5, 5⟩ ∧
    100 < get_area (buffer (.polygon sqPoly) 5) ∧
    nearestDistSq (.point ⟨15,5⟩) (.polygon sqPoly) = 25 := by
  refine ⟨?_, ?_, ?_, ?_⟩
  · norm_num [get_bbox, boundsOf, coordsOf, Polygon.rings, sqPoly]
  · norm_num [get_centroid, allEdges, polyArea2, ringArea2, edges, edgeCross,
      Polygon.rings, sqPoly]
  · norm_num [get_area, buffer, boundsOf, coordsOf, Polygon.rings, sqPoly,
      polyArea2, ringArea2, edges, edgeCross]
  · have hcov : coversB sqPoly ⟨15,5⟩ = false := by
      norm_num [coversB, onBoundaryB, onRingB, edges, Polygon.rings, sqPoly,
        pointSegDistSq, normSq, totalCrossings, ringCrossings, crossesRayB]
    show ptPolyDistSq ⟨15,5⟩ sqPoly = 25
    unfold ptPolyDistSq
    rw [if_neg (by rw [hcov]; exact Bool.false_ne_true)]
    norm_num [allEdges, edges, Polygon.rings, sqPoly, pointSegDistSq, normSq,
      minD, min_def]
